import Mathlib

/-!
Verification of the numerical core of `psychrochart` (`src/psychrochart/util.py`).

The Python module works over IEEE floats; the embedding models numbers as
rationals (`ℚ`), so all arithmetic is exact.  Four pieces of the source are
embedded:

* `orientation`            (util.py, lines 36-54)
* `convex_hull_graham_scan` (util.py, lines 57-91)
* `_iter_solver`           (util.py, lines 94-133)
* `solve_curves_with_iteration` (util.py, lines 136-185)

Python exceptions (`AssertionError` from the two asserts, `IndexError` from
`sorted_points[0]`, and re-raised convergence errors) are modelled with
`Except`.  The process-wide `TESTING_MODE` flag (read once from the
environment) is passed as an explicit `Bool` argument.
-/

namespace Psychro

/-- A 2-D point, Python's `tuple[float, float]` over exact rationals. -/
abbrev Point : Type := ℚ × ℚ

/-- `orientation(p, q, r)` from util.py: computes
`val = (q[1]-p[1])*(r[0]-q[0]) - (q[0]-p[0])*(r[1]-q[1])` and returns
`0` (collinear) when `val == 0`, `1` (clockwise) when `val > 0`,
`2` (counterclockwise) otherwise. -/
def orientation (p q r : Point) : ℕ :=
  let val : ℚ := (q.2 - p.2) * (r.1 - q.1) - (q.1 - p.1) * (r.2 - q.2)
  if val = 0 then 0
  else if val > 0 then 1
  else 2

/-- Twice the signed area of triangle `(o, a, b)`; the cross product
`(a - o) × (b - o)`.  `orientation p q r = 2` exactly when `0 < cross3 p q r`. -/
def cross3 (o a b : Point) : ℚ :=
  (a.1 - o.1) * (b.2 - o.2) - (a.2 - o.2) * (b.1 - o.1)

/-- Python's lexicographic `<` on 2-tuples (used by `min(points)`). -/
def lexLt (a b : Point) : Prop :=
  a.1 < b.1 ∨ (a.1 = b.1 ∧ a.2 < b.2)

instance (a b : Point) : Decidable (lexLt a b) := by
  unfold lexLt; infer_instance

/-- Python's `min(points)`: the lexicographically smallest tuple
(first occurrence; on distinct rational pairs the minimum is unique). -/
def lexMin (l : List Point) : Point :=
  match l with
  | [] => (0, 0)
  | p :: ps => ps.foldl (fun m q => if lexLt q m then q else m) p

/-- Quadrant tag of `atan2(u.2, u.1)`: the value of `atan2` lies in `(-π, π]`
and the tag is monotone in it — `0` for `(-π, 0)` (y < 0), `1` for angle `0`
(y = 0, x ≥ 0, including `atan2(0,0) = 0`), `2` for `(0, π)` (y > 0), `3`
for angle `π` (y = 0, x < 0). -/
def atanTag (u : Point) : ℕ :=
  if u.2 < 0 then 0
  else if u.2 = 0 ∧ 0 ≤ u.1 then 1
  else if 0 < u.2 then 2
  else 3

/-- Within tags `0` and `2` (the open half planes `y < 0` and `y > 0`),
`atan2(y, x)` is strictly increasing in `-(x/y)`; on the constant-angle tags
`1` and `3` the slope key is `0`. -/
def atanSlope (u : Point) : ℚ :=
  if u.2 = 0 then 0 else -(u.1 / u.2)

/-- The sort key of `convex_hull_graham_scan`:
Python sorts by `(np.arctan2(y - leftp_y, x - leftp_x), x, y)`.
The transcendental `arctan2` component is replaced by the order-isomorphic
exact pair `(atanTag, atanSlope)` of the offset, so the lexicographic order
on `sortKey z a` coincides with Python's key order. -/
def sortKey (z a : Point) : ℕ × ℚ × ℚ × ℚ :=
  let u : Point := (a.1 - z.1, a.2 - z.2)
  (atanTag u, atanSlope u, a.1, a.2)

/-- Lexicographic `≤` on sort keys. -/
def keyLe (k l : ℕ × ℚ × ℚ × ℚ) : Prop :=
  k.1 < l.1 ∨ (k.1 = l.1 ∧
    (k.2.1 < l.2.1 ∨ (k.2.1 = l.2.1 ∧
      (k.2.2.1 < l.2.2.1 ∨ (k.2.2.1 = l.2.2.1 ∧ k.2.2.2 ≤ l.2.2.2)))))

instance (k l : ℕ × ℚ × ℚ × ℚ) : Decidable (keyLe k l) := by
  unfold keyLe; infer_instance

/-- The comparator of the polar sort in `convex_hull_graham_scan`:
`a` comes no later than `b` when sorting around the pivot `z`. -/
def polarLe (z a b : Point) : Bool :=
  decide (keyLe (sortKey z a) (sortKey z b))

/-- Stable insertion of `x` into `l`: `x` goes after every element `y`
with `le y x`.  Used to model Python's stable `sorted`. -/
def insertLe (le : Point → Point → Bool) (x : Point) : List Point → List Point
  | [] => [x]
  | y :: ys => if le y x then y :: insertLe le x ys else x :: y :: ys

/-- Stable insertion sort; on any input it returns the same list as Python's
stable `sorted` with the same comparator (a stable sort is determined by its
comparator). -/
def stableSort (le : Point → Point → Bool) (l : List Point) : List Point :=
  l.foldl (fun acc x => insertLe le x acc) []

/-- The inner `while` of the Graham scan (`hull` is kept top-first, so
Python's `hull[-1]` is the head):
`while len(hull) > 1 and orientation(hull[-2], hull[-1], pt) != 2: hull.pop()`. -/
def popWhile (pt : Point) : List Point → List Point
  | a :: b :: rest =>
      if orientation b a pt ≠ 2 then popWhile pt (b :: rest) else a :: b :: rest
  | l => l

/-- One step of the scan loop: pop non-counterclockwise turns, then push. -/
def scanStep (hull : List Point) (pt : Point) : List Point :=
  pt :: popWhile pt hull

/-- Failure modes of `convex_hull_graham_scan`:
`precondition` is the `assert numpoints >= 3` (the spec's PreconditionError),
`indexError` is the `sorted_points[0]` lookup on an empty list,
`hullAssert` is the final `assert len(hull_x) >= 2`. -/
inductive HullError : Type
  | precondition : HullError
  | indexError : HullError
  | hullAssert : HullError
deriving DecidableEq, Repr

/-- `convex_hull_graham_scan(points)` from util.py.  The hull stack is kept
top-first and reversed at the end, so the returned coordinate lists are in
the same (bottom-first) order as in Python. -/
def convex_hull_graham_scan (points : List Point) :
    Except HullError (List ℚ × List ℚ) :=
  if points.length < 3 then .error .precondition
  else
    let leftp := lexMin points
    let sorted_points := stableSort (polarLe leftp)
      (points.filter (fun p => decide (p ≠ leftp)))
    match sorted_points with
    | [] => .error .indexError
    | s0 :: rest =>
      let hull := rest.foldl scanStep [s0, leftp]
      let hullR := hull.reverse
      if hullR.length < 2 then .error .hullAssert
      else .ok (hullR.map Prod.fst, hullR.map Prod.snd)

/-- The data of the `AssertionError` raised by `_iter_solver` on exhaustion:
`f"No convergence error after {num_iter} iterations! Last value: {value_calc},
∆: {increment}. Objective: {objective_value}, iter_value: {iteration_value}"`. -/
structure ConvErr : Type where
  iterations : ℕ
  last_value : ℚ
  increment : ℚ
  objective : ℚ
  iter_value : ℚ
deriving DecidableEq, Repr

/-- The per-iteration update of `_iter_solver` (util.py lines 112-124):
given the sign of the error, possibly halve the increment on a direction
flip, floor it at `precision / 20`, and move `value_calc` by it.
Returns `(decreasing, increment, value_calc)`. -/
def iterStep (precision : ℚ) (decreasing : Bool) (increment error value_calc : ℚ) :
    Bool × ℚ × ℚ :=
  if error < 0 then
    let di := if decreasing = false then (true, increment / 2) else (decreasing, increment)
    let increment2 := max (precision / 20) di.2
    (di.1, increment2, value_calc - increment2)
  else
    let di := if decreasing = true then (false, increment / 2) else (decreasing, increment)
    let increment2 := max (precision / 20) di.2
    (di.1, increment2, value_calc + increment2)

/-- The `while` loop of `_iter_solver`.  `fuel` counts the remaining loop
entries allowed by the condition `num_iter < num_iters_max`
(`fuel = num_iters_max - num_iter` at every call), so the recursion is
structural and the kernel can evaluate it. -/
def iterLoop (func_eval : ℚ → ℚ) (objective precision : ℚ) (num_iters_max : ℕ) :
    ℕ → Bool → ℚ → ℕ → ℚ → ℚ → Except ConvErr (ℚ × ℕ)
  | 0, _, _, num_iter, value_calc, _ => .ok (value_calc, num_iter)
  | fuel + 1, decreasing, increment, num_iter, value_calc, error =>
    if ¬ |error| > precision then .ok (value_calc, num_iter)
    else
      let iteration_value := func_eval value_calc
      let error2 := objective - iteration_value
      if |error2| < precision then .ok (value_calc, num_iter)
      else
        let s := iterStep precision decreasing increment error2 value_calc
        let num_iter2 := num_iter + 1
        if num_iter2 = num_iters_max then
          .error ⟨num_iter2, s.2.2, s.2.1, objective, iteration_value⟩
        else
          iterLoop func_eval objective precision num_iters_max fuel
            s.1 s.2.1 num_iter2 s.2.2 error2

/-- `_iter_solver` from util.py: `decreasing = True`, `increment =
initial_increment`, `num_iter = 0`, `value_calc = initial_value`,
`error = objective_value - func_eval(initial_value)`, then the loop. -/
def _iter_solver (initial_value objective_value : ℚ) (func_eval : ℚ → ℚ)
    (initial_increment : ℚ) (num_iters_max : ℕ) (precision : ℚ) :
    Except ConvErr (ℚ × ℕ) :=
  iterLoop func_eval objective_value precision num_iters_max num_iters_max
    true initial_increment 0 initial_value
    (objective_value - func_eval initial_value)

/-- `NUM_ITERS_MAX = 100` from util.py. -/
def NUM_ITERS_MAX : ℕ := 100

/-- The `families` table of `solve_curves_with_iteration`:
`(checking precision, initial_increment, precision)`;
`"ENTHALPHY" ↦ (0.01, 0.5, 0.01)`,
`"CONSTANT VOLUME" ↦ (0.0005, 1, 0.00025)`. -/
def families (family_name : String) : Option (ℚ × ℚ × ℚ) :=
  if family_name = "ENTHALPHY" then some (1/100, 1/2, 1/100)
  else if family_name = "CONSTANT VOLUME" then some (1/2000, 1, 1/4000)
  else none

/-- Failure modes of `solve_curves_with_iteration`:
`configuration` is the unknown-family assert; `convergence` is the solver's
`AssertionError` re-raised in testing mode; `resultQuality` (objective and
calculated point) is the `BAD RESULT` assert of the testing-mode check. -/
inductive BatchError : Type
  | configuration : BatchError
  | convergence : ConvErr → BatchError
  | resultQuality : ℚ → ℚ → BatchError
deriving DecidableEq, Repr

/-- One element of the batch: the `_iter_solver` call in
`solve_curves_with_iteration` (`num_iters_max` keeps its default). -/
def solveOne (initial_increment precision : ℚ) (func_init func_eval : ℚ → ℚ)
    (objective : ℚ) : Except ConvErr (ℚ × ℕ) :=
  _iter_solver (func_init objective) objective func_eval initial_increment
    NUM_ITERS_MAX precision

/-- The `for objective in objective_values` loop of
`solve_curves_with_iteration`, with `calc_points` accumulated in reverse.
On a convergence error the batch is aborted: re-raise in testing mode, or
return the prefix solved so far in normal mode.  In testing mode a solved
point whose residual exceeds `precision_comp` raises. -/
def solveLoop (testing_mode : Bool) (precision_comp initial_increment precision : ℚ)
    (func_init func_eval : ℚ → ℚ) :
    List ℚ → List ℚ → Except BatchError (List ℚ)
  | [], calc_points => .ok calc_points.reverse
  | objective :: rest, calc_points =>
    match solveOne initial_increment precision func_init func_eval objective with
    | .error exc =>
        if testing_mode then .error (.convergence exc) else .ok calc_points.reverse
    | .ok (calc_p, _num_iter) =>
        if testing_mode = true ∧ |objective - func_eval calc_p| > precision_comp then
          .error (.resultQuality objective calc_p)
        else
          solveLoop testing_mode precision_comp initial_increment precision
            func_init func_eval rest (calc_p :: calc_points)

/-- `solve_curves_with_iteration` from util.py, with the process-wide
`TESTING_MODE` flag passed explicitly. -/
def solve_curves_with_iteration (testing_mode : Bool) (family_name : String)
    (objective_values : List ℚ) (func_init func_eval : ℚ → ℚ) :
    Except BatchError (List ℚ) :=
  match families family_name with
  | none => .error .configuration
  | some (precision_comp, initial_increment, precision) =>
    solveLoop testing_mode precision_comp initial_increment precision
      func_init func_eval objective_values []

instance {ε α : Type} [DecidableEq ε] [DecidableEq α] : DecidableEq (Except ε α) :=
  fun x y =>
  match x, y with
  | .ok a, .ok b =>
      if h : a = b then .isTrue (by rw [h])
      else .isFalse (fun hc => h (Except.ok.inj hc))
  | .error a, .error b =>
      if h : a = b then .isTrue (by rw [h])
      else .isFalse (fun hc => h (Except.error.inj hc))
  | .ok _, .error _ => .isFalse (fun hc => Except.noConfusion hc)
  | .error _, .ok _ => .isFalse (fun hc => Except.noConfusion hc)

/-- The strict part of the lexicographic order: `z` comes strictly before `a`.
Every point of the Graham scan's `sorted_points` is strictly above the pivot
in this order, since the pivot is `min(points)` and equal tuples are filtered
out. -/
def SLex (z a : Point) : Prop :=
  z.1 < a.1 ∨ (z.1 = a.1 ∧ z.2 < a.2)

/-- Strict counterclockwise convexity of consecutive triples of the hull
stack (kept top-first): for every three adjacent entries `a :: b :: c :: _`
the turn `c → b → a` is a strict left turn. -/
def Chain3 : List Point → Prop
  | a :: b :: c :: rest => 0 < cross3 c b a ∧ Chain3 (b :: c :: rest)
  | _ => True

/-! ## Lemmas about the step solver -/

lemma iterStep_neg_true (prec inc err v : ℚ) (h : err < 0) :
    iterStep prec true inc err v =
      (true, max (prec / 20) inc, v - max (prec / 20) inc) := by
  simp [iterStep, h]

lemma iterStep_neg_false (prec inc err v : ℚ) (h : err < 0) :
    iterStep prec false inc err v =
      (true, max (prec / 20) (inc / 2), v - max (prec / 20) (inc / 2)) := by
  simp [iterStep, h]

lemma iterStep_nonneg_true (prec inc err v : ℚ) (h : ¬ err < 0) :
    iterStep prec true inc err v =
      (false, max (prec / 20) (inc / 2), v + max (prec / 20) (inc / 2)) := by
  simp [iterStep, h]

lemma iterStep_nonneg_false (prec inc err v : ℚ) (h : ¬ err < 0) :
    iterStep prec false inc err v =
      (false, max (prec / 20) inc, v + max (prec / 20) inc) := by
  simp [iterStep, h]

lemma abs_sub_step_down (w m : ℚ) (hm : 0 < m) : |w - m - w| = m := by
  have h : w - m - w = -m := by ring
  rw [h, abs_neg, abs_of_pos hm]

lemma abs_sub_step_up (w m : ℚ) (hm : 0 < m) : |w + m - w| = m := by
  have h : w + m - w = m := by ring
  rw [h, abs_of_pos hm]

/-- C5 (amended): in every iteration of `_iter_solver`, the increment is
halved exactly when the step direction flips relative to the direction flag,
which is initialized to `decreasing`; hence the first step applies the full
caller-supplied `initial_increment` only when it is a downward step (negative
error), an upward first step being halved.  The increment is floored at
`precision / 20` and the value moves by exactly the resulting increment, so
the applied step magnitude never falls below `precision / 20`. -/
theorem iterStep_policy (prec : ℚ) (hp : 0 < prec) (d : Bool) (inc err v : ℚ) :
    (iterStep prec d inc err v).2.1 =
      max (prec / 20) (if (iterStep prec d inc err v).1 = d then inc else inc / 2)
    ∧ |(iterStep prec d inc err v).2.2 - v| = (iterStep prec d inc err v).2.1
    ∧ prec / 20 ≤ (iterStep prec d inc err v).2.1 := by
  have h20 : 0 < prec / 20 := by positivity
  cases d <;> by_cases hlt : err < 0
  · rw [iterStep_neg_false prec inc err v hlt]
    have hpos : 0 < max (prec / 20) (inc / 2) := lt_of_lt_of_le h20 (le_max_left _ _)
    exact ⟨by simp, abs_sub_step_down _ _ hpos, le_max_left _ _⟩
  · rw [iterStep_nonneg_false prec inc err v hlt]
    have hpos : 0 < max (prec / 20) inc := lt_of_lt_of_le h20 (le_max_left _ _)
    exact ⟨by simp, abs_sub_step_up _ _ hpos, le_max_left _ _⟩
  · rw [iterStep_neg_true prec inc err v hlt]
    have hpos : 0 < max (prec / 20) inc := lt_of_lt_of_le h20 (le_max_left _ _)
    exact ⟨by simp, abs_sub_step_down _ _ hpos, le_max_left _ _⟩
  · rw [iterStep_nonneg_true prec inc err v hlt]
    have hpos : 0 < max (prec / 20) (inc / 2) := lt_of_lt_of_le h20 (le_max_left _ _)
    exact ⟨by simp, abs_sub_step_up _ _ hpos, le_max_left _ _⟩

/-- The step taken by `iterStep` is one positive increment up or down. -/
lemma iterStep_moves (prec : ℚ) (hp : 0 < prec) (d : Bool) (inc err v : ℚ) :
    0 < (iterStep prec d inc err v).2.1 ∧
      ((iterStep prec d inc err v).2.2 = v - (iterStep prec d inc err v).2.1 ∨
       (iterStep prec d inc err v).2.2 = v + (iterStep prec d inc err v).2.1) := by
  have h20 : 0 < prec / 20 := by positivity
  cases d <;> by_cases hlt : err < 0
  · rw [iterStep_neg_false prec inc err v hlt]
    exact ⟨lt_of_lt_of_le h20 (le_max_left _ _), Or.inl rfl⟩
  · rw [iterStep_nonneg_false prec inc err v hlt]
    exact ⟨lt_of_lt_of_le h20 (le_max_left _ _), Or.inr rfl⟩
  · rw [iterStep_neg_true prec inc err v hlt]
    exact ⟨lt_of_lt_of_le h20 (le_max_left _ _), Or.inl rfl⟩
  · rw [iterStep_nonneg_true prec inc err v hlt]
    exact ⟨lt_of_lt_of_le h20 (le_max_left _ _), Or.inr rfl⟩

/-- Normal returns of the solver loop use at most `num_iter + fuel`
iterations. -/
lemma iterLoop_ok_le (f : ℚ → ℚ) (obj prec : ℚ) (m : ℕ) :
    ∀ (fuel : ℕ) (d : Bool) (inc : ℚ) (ni : ℕ) (v e v2 : ℚ) (n : ℕ),
      iterLoop f obj prec m fuel d inc ni v e = .ok (v2, n) → n ≤ ni + fuel := by
  intro fuel
  induction fuel with
  | zero =>
    intro d inc ni v e v2 n h
    simp only [iterLoop, Except.ok.injEq, Prod.mk.injEq] at h
    omega
  | succ fuel ih =>
    intro d inc ni v e v2 n h
    simp only [iterLoop] at h
    split at h
    · simp only [Except.ok.injEq, Prod.mk.injEq] at h
      omega
    · split at h
      · simp only [Except.ok.injEq, Prod.mk.injEq] at h
        omega
      · split at h
        · exact Except.noConfusion h
        · have := ih _ _ _ _ _ _ _ h
          omega

/-- The loop raises only at the moment the iteration counter reaches
`num_iters_max`: every convergence error carries `iterations = num_iters_max`. -/
lemma iterLoop_error_iters (f : ℚ → ℚ) (obj prec : ℚ) (m : ℕ) :
    ∀ (fuel : ℕ) (d : Bool) (inc : ℚ) (ni : ℕ) (v e : ℚ) (err : ConvErr),
      iterLoop f obj prec m fuel d inc ni v e = .error err → err.iterations = m := by
  intro fuel
  induction fuel with
  | zero =>
    intro d inc ni v e err h
    exact Except.noConfusion h
  | succ fuel ih =>
    intro d inc ni v e err h
    simp only [iterLoop] at h
    split at h
    · exact Except.noConfusion h
    · split at h
      · exact Except.noConfusion h
      · rename_i hmax
        split at h
        · rename_i hm
          simp only [Except.error.injEq] at h
          subst h
          simpa using hm
        · exact ih _ _ _ _ _ _ h

/-- Precision at a normal return of the loop.  The invariant carried by the
last two arguments: the `error` argument is the error at the current value,
or — after the first step — the error at the pre-step value, in which case
the current value is one positive increment away from it and that error was
at least `precision` in magnitude.  A normal return is then within precision,
or is one positive increment past a point whose error is exactly
`precision`. -/
lemma iterLoop_ok_prec (f : ℚ → ℚ) (obj prec : ℚ) (m : ℕ) (hp : 0 < prec) :
    ∀ (fuel : ℕ) (d : Bool) (inc : ℚ) (ni : ℕ) (v e v2 : ℚ) (n : ℕ),
      ni + fuel = m → 0 < fuel →
      (e = obj - f v ∨
        (prec ≤ |e| ∧ ∃ u d2 : ℚ, 0 < d2 ∧ e = obj - f u ∧ (v = u - d2 ∨ v = u + d2))) →
      iterLoop f obj prec m fuel d inc ni v e = .ok (v2, n) →
      (|obj - f v2| ≤ prec ∨
        ∃ u d2 : ℚ, 0 < d2 ∧ |obj - f u| = prec ∧ (v2 = u - d2 ∨ v2 = u + d2)) := by
  intro fuel
  induction fuel with
  | zero =>
    intro d inc ni v e v2 n hm hf hinv h
    omega
  | succ fuel ih =>
    intro d inc ni v e v2 n hm hf hinv h
    simp only [iterLoop] at h
    split at h
    · rename_i hcond
      rw [not_lt] at hcond
      simp only [Except.ok.injEq, Prod.mk.injEq] at h
      obtain ⟨hv, -⟩ := h
      subst hv
      rcases hinv with he | ⟨hle, u, d2, hd2, heq, hor⟩
      · exact Or.inl (by rw [← he]; exact hcond)
      · refine Or.inr ⟨u, d2, hd2, ?_, hor⟩
        rw [← heq]
        exact le_antisymm hcond hle
    · rename_i hcond
      split at h
      · rename_i herr2
        simp only [Except.ok.injEq, Prod.mk.injEq] at h
        obtain ⟨hv, -⟩ := h
        subst hv
        exact Or.inl (le_of_lt herr2)
      · rename_i herr2
        split at h
        · exact Except.noConfusion h
        · rename_i hmax
          refine ih _ _ _ _ _ _ _ (by omega) (by omega) ?_ h
          refine Or.inr ⟨not_lt.mp herr2, v,
            (iterStep prec d inc (obj - f v) v).2.1,
            (iterStep_moves prec hp d inc (obj - f v) v).1, rfl,
            (iterStep_moves prec hp d inc (obj - f v) v).2⟩

/-- C2 (amended): for every pure evaluation function, with positive precision
and a positive iteration budget, `_iter_solver` either returns normally a
pair `(v, n)` with `n ≤ num_iters_max`, where `v` satisfies
`|objective − evaluate(v)| ≤ precision` or — when the loop exits because the
measured error magnitude equals `precision` exactly — is one positive
increment away from a candidate `u` with `|objective − evaluate(u)| =
precision`; or it fails with a convergence error, which happens exactly at
the moment the iteration counter reaches `num_iters_max`. -/
theorem solveStep_dichotomy (f : ℚ → ℚ) (init obj inc prec : ℚ) (m : ℕ)
    (hp : 0 < prec) (hm : 0 < m) :
    (∀ v n, _iter_solver init obj f inc m prec = .ok (v, n) →
      n ≤ m ∧ (|obj - f v| ≤ prec ∨
        ∃ u d2 : ℚ, 0 < d2 ∧ |obj - f u| = prec ∧ (v = u - d2 ∨ v = u + d2)))
    ∧ (∀ e, _iter_solver init obj f inc m prec = .error e → e.iterations = m) := by
  constructor
  · intro v n h
    rw [_iter_solver] at h
    refine ⟨?_, ?_⟩
    · have := iterLoop_ok_le f obj prec m m true inc 0 init (obj - f init) v n h
      omega
    · exact iterLoop_ok_prec f obj prec m hp m true inc 0 init (obj - f init) v n
        (by omega) hm (Or.inl rfl) h
  · intro e h
    rw [_iter_solver] at h
    exact iterLoop_error_iters f obj prec m m true inc 0 init (obj - f init) e h

/-- C1 (amended): for every strictly monotonic evaluation function and every
objective value within its range, `_iter_solver` (with positive precision and
budget) does not always terminate successfully, but uses at most
`num_iters_max` iterations when it does; a successful return satisfies
`|objective − evaluate(v)| ≤ precision` or is one positive increment past a
candidate with error magnitude exactly `precision`. -/
theorem solveStep_monotone_bounded (f : ℚ → ℚ) (hf : StrictMono f) (obj : ℚ)
    (hobj : ∃ x, f x = obj) (init inc prec : ℚ) (m : ℕ)
    (hp : 0 < prec) (hm : 0 < m) :
    ∀ v n, _iter_solver init obj f inc m prec = .ok (v, n) →
      n ≤ m ∧ (|obj - f v| ≤ prec ∨
        ∃ u d2 : ℚ, 0 < d2 ∧ |obj - f u| = prec ∧ (v = u - d2 ∨ v = u + d2)) := by
  intro v n h
  rw [_iter_solver] at h
  refine ⟨?_, ?_⟩
  · have := iterLoop_ok_le f obj prec m m true inc 0 init (obj - f init) v n h
    omega
  · exact iterLoop_ok_prec f obj prec m hp m true inc 0 init (obj - f init) v n
      (by omega) hm (Or.inl rfl) h

section ConcreteSolver

-- Batteries marks the rational-number operations `@[irreducible]`; for
-- concrete kernel evaluation of the embedded functions their default
-- reducibility is restored locally, and the recursion-depth limit is
-- raised for the 100-iteration runs of the solver.
attribute [local semireducible] Rat.mul Rat.add Rat.sub Rat.inv

set_option maxRecDepth 8000

/-- C1 (counterexample): the identity is strictly monotonic and the
objective `10^9` is in its range, yet `_iter_solver` started at `0` with the
default increment `4`, the default budget `100` and the default precision
`0.01` exhausts its budget and fails with a convergence error, refuting
guaranteed successful termination. -/
theorem solveStep_not_always_convergent :
    StrictMono (id : ℚ → ℚ) ∧ id (1000000000 : ℚ) = 1000000000 ∧
      _iter_solver 0 1000000000 id 4 100 (1/100) =
        .error ⟨100, 200, 2, 1000000000, 198⟩ :=
  ⟨strictMono_id, rfl, by decide⟩

/-- C2 (counterexample): with the identity evaluation function, objective
`0`, initial value `5`, increment `4` and precision `1`, the solver returns
normally the pair `(-3, 2)`, and the returned value violates the precision
bound: `|0 - (-3)| = 3 > 1`.  (The loop exited on an exact-precision error
of magnitude `1` at the candidate `1` and returned the value one step past
it.) -/
theorem solveStep_precision_escape :
    _iter_solver 5 0 id 4 100 1 = .ok (-3, 2) ∧ ¬ |(0:ℚ) - id (-3)| ≤ 1 :=
  ⟨by decide, by norm_num⟩

/-- Witness for `solveStep_dichotomy` at a concrete input. -/
theorem solveStep_dichotomy_witness :
    (0:ℕ) ≤ 100 ∧ (|(0:ℚ) - id 0| ≤ 1 ∨
      ∃ u d2 : ℚ, 0 < d2 ∧ |(0:ℚ) - id u| = 1 ∧ ((0:ℚ) = u - d2 ∨ (0:ℚ) = u + d2)) :=
  (solveStep_dichotomy id 0 0 4 1 100 (by norm_num) (by norm_num)).1 0 0 (by decide)

/-- Witness for `solveStep_monotone_bounded` at a concrete input. -/
theorem solveStep_monotone_bounded_witness :
    (0:ℕ) ≤ 100 ∧ (|(5:ℚ) - id 5| ≤ 1 ∨
      ∃ u d2 : ℚ, 0 < d2 ∧ |(5:ℚ) - id u| = 1 ∧ ((5:ℚ) = u - d2 ∨ (5:ℚ) = u + d2)) :=
  solveStep_monotone_bounded id strictMono_id 5 ⟨5, rfl⟩ 5 4 1 100
    (by norm_num) (by norm_num) 5 0 (by decide)

/-- C5 (counterexample): on the very first iteration, with the direction
flag at its initial value `decreasing = True`, the caller-supplied increment
`4` and a positive error, the applied step is `2`, not the full `4`: the
first upward step is halved even though no previous step exists. -/
theorem iterStep_first_upward_halves :
    iterStep (1/100) true 4 10 0 = (false, 2, 2) ∧ |(2:ℚ) - 0| ≠ 4 :=
  ⟨by decide, by norm_num⟩

/-- Witness for `iterStep_policy` at a concrete input. -/
theorem iterStep_policy_witness :
    (iterStep 1 true 4 (-1) 0).2.1 =
      max ((1:ℚ) / 20) (if (iterStep 1 true 4 (-1) 0).1 = true then 4 else 4 / 2)
    ∧ |(iterStep 1 true 4 (-1) 0).2.2 - 0| = (iterStep 1 true 4 (-1) 0).2.1
    ∧ (1:ℚ) / 20 ≤ (iterStep 1 true 4 (-1) 0).2.1 :=
  iterStep_policy 1 (by norm_num) true 4 (-1) 0

end ConcreteSolver

/-! ## Lemmas about the family batch solver -/

/-- When every element of the batch converges, `solveLoop` in normal mode
returns the accumulator (reversed) followed by the solved values, in input
order. -/
lemma solveLoop_all_ok (pc inc prec : ℚ) (fi fe : ℚ → ℚ) :
    ∀ (objs : List ℚ) (acc : List ℚ),
      (∀ obj ∈ objs, ∃ v n, solveOne inc prec fi fe obj = .ok (v, n)) →
      ∃ l, solveLoop false pc inc prec fi fe objs acc = .ok (acc.reverse ++ l) ∧
        List.Forall₂ (fun obj v => ∃ n, solveOne inc prec fi fe obj = .ok (v, n)) objs l := by
  intro objs
  induction objs with
  | nil =>
    intro acc _
    exact ⟨[], by simp [solveLoop], List.Forall₂.nil⟩
  | cons obj rest ih =>
    intro acc hconv
    obtain ⟨v, n, hv⟩ := hconv obj (by simp)
    obtain ⟨l, hl, hfa⟩ := ih (v :: acc) (fun x hx => hconv x (by simp [hx]))
    refine ⟨v :: l, ?_, List.Forall₂.cons ⟨n, hv⟩ hfa⟩
    simp only [solveLoop, hv]
    rw [if_neg (by simp)]
    rw [hl]
    simp

/-- When a prefix of the batch converges (and passes the testing-mode
residual check) and the next element diverges, `solveLoop` in normal mode
returns the solved prefix and in testing mode re-raises the convergence
error. -/
lemma solveLoop_prefix_error (pc inc prec : ℚ) (fi fe : ℚ → ℚ) (bad : ℚ) (e : ConvErr)
    (hbad : solveOne inc prec fi fe bad = .error e) :
    ∀ (pre : List ℚ) (rest : List ℚ) (acc : List ℚ),
      (∀ x ∈ pre, ∃ v n, solveOne inc prec fi fe x = .ok (v, n) ∧ |x - fe v| ≤ pc) →
      (∃ l, solveLoop false pc inc prec fi fe (pre ++ bad :: rest) acc =
              .ok (acc.reverse ++ l) ∧
            List.Forall₂ (fun obj v => ∃ n, solveOne inc prec fi fe obj = .ok (v, n)) pre l)
      ∧ solveLoop true pc inc prec fi fe (pre ++ bad :: rest) acc =
          .error (.convergence e) := by
  intro pre
  induction pre with
  | nil =>
    intro rest acc _
    constructor
    · exact ⟨[], by simp [solveLoop, hbad], List.Forall₂.nil⟩
    · simp [solveLoop, hbad]
  | cons x pre ih =>
    intro rest acc hpre
    obtain ⟨v, n, hv, hres⟩ := hpre x (by simp)
    obtain ⟨⟨l, hl, hfa⟩, htest⟩ :=
      ih rest (v :: acc) (fun y hy => hpre y (by simp [hy]))
    constructor
    · refine ⟨v :: l, ?_, List.Forall₂.cons ⟨n, hv⟩ hfa⟩
      simp only [List.cons_append, solveLoop, hv, List.append_eq]
      rw [if_neg (by simp)]
      rw [hl]
      simp
    · simp only [List.cons_append, solveLoop, hv, List.append_eq]
      rw [if_neg (by simp [not_lt.mpr hres])]
      exact htest

/-- C7: for every recognized family name and every objectives sequence whose
elements all converge, `solve_curves_with_iteration` in normal operating
mode returns a sequence of the same length with the solved value for
objective `i` at position `i`; and on an empty objectives sequence (for the
family `"ENTHALPHY"`, in either mode) it returns an empty sequence without
error. -/
theorem solveFamilyBatch_preserves (family_name : String) (cfg : ℚ × ℚ × ℚ)
    (hfam : families family_name = some cfg) (objs : List ℚ) (fi fe : ℚ → ℚ)
    (hconv : ∀ obj ∈ objs, ∃ v n, solveOne cfg.2.1 cfg.2.2 fi fe obj = .ok (v, n)) :
    (∃ l, solve_curves_with_iteration false family_name objs fi fe = .ok l ∧
       l.length = objs.length ∧
       List.Forall₂ (fun obj v => ∃ n, solveOne cfg.2.1 cfg.2.2 fi fe obj = .ok (v, n)) objs l)
    ∧ (∀ (tm : Bool) (fi2 fe2 : ℚ → ℚ),
        solve_curves_with_iteration tm "ENTHALPHY" [] fi2 fe2 = .ok []) := by
  constructor
  · obtain ⟨pc, inc, prec⟩ := cfg
    obtain ⟨l, hl, hfa⟩ := solveLoop_all_ok pc inc prec fi fe objs [] hconv
    refine ⟨l, ?_, (hfa.length_eq).symm, hfa⟩
    simp only [solve_curves_with_iteration, hfam]
    simpa using hl
  · intro tm fi2 fe2
    rfl

/-- C6: when solving element `k` of a batch raises a convergence error (and
the first `k` elements converge and pass the residual check),
`solve_curves_with_iteration` in normal operating mode returns only the
first `k` successfully solved values, without raising, and in testing
(strict/validation) mode propagates the failure immediately, aborting the
batch. -/
theorem solveFamilyBatch_abort_policy (family_name : String) (cfg : ℚ × ℚ × ℚ)
    (hfam : families family_name = some cfg) (pre rest : List ℚ) (bad : ℚ)
    (fi fe : ℚ → ℚ) (e : ConvErr)
    (hbad : solveOne cfg.2.1 cfg.2.2 fi fe bad = .error e)
    (hpre : ∀ x ∈ pre,
      ∃ v n, solveOne cfg.2.1 cfg.2.2 fi fe x = .ok (v, n) ∧ |x - fe v| ≤ cfg.1) :
    (∃ l, solve_curves_with_iteration false family_name (pre ++ bad :: rest) fi fe =
            .ok l ∧
       l.length = pre.length ∧
       List.Forall₂ (fun obj v => ∃ n, solveOne cfg.2.1 cfg.2.2 fi fe obj = .ok (v, n)) pre l)
    ∧ solve_curves_with_iteration true family_name (pre ++ bad :: rest) fi fe =
        .error (.convergence e) := by
  obtain ⟨pc, inc, prec⟩ := cfg
  obtain ⟨⟨l, hl, hfa⟩, htest⟩ :=
    solveLoop_prefix_error pc inc prec fi fe bad e hbad pre rest [] hpre
  constructor
  · refine ⟨l, ?_, (hfa.length_eq).symm, hfa⟩
    simp only [solve_curves_with_iteration, hfam]
    simpa using hl
  · simp only [solve_curves_with_iteration, hfam]
    exact htest

section ConcreteBatch

attribute [local semireducible] Rat.mul Rat.add Rat.sub Rat.inv

set_option maxRecDepth 8000

/-- Witness for `solveFamilyBatch_preserves` at a concrete input. -/
theorem solveFamilyBatch_preserves_witness :
    solve_curves_with_iteration true "ENTHALPHY" [] id id = .ok [] :=
  (solveFamilyBatch_preserves "ENTHALPHY" (1/100, 1/2, 1/100) rfl [] id id
    (by simp)).2 true id id

/-- Witness for `solveFamilyBatch_abort_policy` at a concrete input: the
first element `3` converges (to `3` in 12 iterations) and the second element
`10^6` diverges, so the strict mode re-raises the convergence error. -/
theorem solveFamilyBatch_abort_policy_witness :
    solve_curves_with_iteration true "ENTHALPHY" [3, 1000000] (fun _ => 0) id =
      .error (.convergence ⟨100, 25, 1/4, 1000000, 99/4⟩) :=
  (solveFamilyBatch_abort_policy "ENTHALPHY" (1/100, 1/2, 1/100) rfl [3] []
    1000000 (fun _ => 0) id ⟨100, 25, 1/4, 1000000, 99/4⟩ (by decide)
    (by
      intro x hx
      rw [List.mem_singleton] at hx
      subst hx
      exact ⟨3, 12, by decide, by norm_num⟩)).2

end ConcreteBatch

/-! ## The turn classifier -/

lemma val_eq_neg_cross3 (p q r : Point) :
    (q.2 - p.2) * (r.1 - q.1) - (q.1 - p.1) * (r.2 - q.2) = -(cross3 p q r) := by
  unfold cross3; ring

lemma orientation_eq_two_iff (p q r : Point) :
    orientation p q r = 2 ↔ 0 < cross3 p q r := by
  unfold orientation
  rw [val_eq_neg_cross3 p q r]
  dsimp only
  split_ifs with h1 h2
  · constructor
    · intro h; exact absurd h (by norm_num)
    · intro h; exfalso; rw [neg_eq_zero] at h1; linarith
  · constructor
    · intro h; exact absurd h (by norm_num)
    · intro h; linarith
  · constructor
    · intro _; push_neg at h2; rcases lt_or_eq_of_le h2 with h | h
      · linarith
      · exact absurd h.symm (by simpa [neg_eq_zero] using h1)
    · intro _; rfl

lemma orientation_eq_zero_iff (p q r : Point) :
    orientation p q r = 0 ↔ cross3 p q r = 0 := by
  unfold orientation
  rw [val_eq_neg_cross3 p q r]
  dsimp only
  split_ifs with h1 h2
  · simp [neg_eq_zero.mp h1]
  · constructor
    · intro h; exact absurd h (by norm_num)
    · intro h; exact absurd (neg_eq_zero.mpr h) h1
  · constructor
    · intro h; exact absurd h (by norm_num)
    · intro h; exact absurd (neg_eq_zero.mpr h) h1

lemma orientation_eq_one_iff (p q r : Point) :
    orientation p q r = 1 ↔ cross3 p q r < 0 := by
  unfold orientation
  rw [val_eq_neg_cross3 p q r]
  dsimp only
  split_ifs with h1 h2
  · constructor
    · intro h; exact absurd h (by norm_num)
    · intro h; rw [neg_eq_zero] at h1; linarith
  · exact ⟨fun _ => by linarith, fun _ => rfl⟩
  · constructor
    · intro h; exact absurd h (by norm_num)
    · intro h; exact absurd (by linarith : (0:ℚ) < -(cross3 p q r)) h2

/-- Not-counterclockwise (the pop condition of the scan) means a
non-positive cross product. -/
lemma orientation_ne_two_iff (p q r : Point) :
    orientation p q r ≠ 2 ↔ cross3 p q r ≤ 0 := by
  rw [not_iff_comm.symm, orientation_eq_two_iff, not_le]

/-- C4: classifyTurn (`orientation`) returns the classification of the sign
of the cross product `(q−p) × (r−q)`: it is `0` (collinear) exactly when
that cross product is zero, `2` (counterclockwise) exactly when it is
positive, `1` (clockwise) exactly when it is negative; in particular the
triplets `((0,0),(1,0),(1,1))`, `((0,0),(1,1),(2,0))` and
`((0,0),(1,0),(2,0))` classify as counterclockwise, clockwise and collinear
respectively.  The function is total (pure, never fails). -/
theorem classifyTurn_spec :
    (∀ p q r : Point, orientation p q r = 0 ↔
      (q.1 - p.1) * (r.2 - q.2) - (q.2 - p.2) * (r.1 - q.1) = 0)
    ∧ (∀ p q r : Point, orientation p q r = 2 ↔
      0 < (q.1 - p.1) * (r.2 - q.2) - (q.2 - p.2) * (r.1 - q.1))
    ∧ (∀ p q r : Point, orientation p q r = 1 ↔
      (q.1 - p.1) * (r.2 - q.2) - (q.2 - p.2) * (r.1 - q.1) < 0)
    ∧ orientation (0, 0) (1, 0) (1, 1) = 2
    ∧ orientation (0, 0) (1, 1) (2, 0) = 1
    ∧ orientation (0, 0) (1, 0) (2, 0) = 0 := by
  have hcross : ∀ p q r : Point,
      (q.1 - p.1) * (r.2 - q.2) - (q.2 - p.2) * (r.1 - q.1) = cross3 p q r := by
    intro p q r; unfold cross3; ring
  refine ⟨?_, ?_, ?_, ?_, ?_, ?_⟩
  · intro p q r; rw [hcross, orientation_eq_zero_iff]
  · intro p q r; rw [hcross, orientation_eq_two_iff]
  · intro p q r; rw [hcross, orientation_eq_one_iff]
  · rw [orientation_eq_two_iff]; unfold cross3; norm_num
  · rw [orientation_eq_one_iff]; unfold cross3; norm_num
  · rw [orientation_eq_zero_iff]; unfold cross3; norm_num

/-! ## The lexicographic order and the pivot -/

lemma lexLt_trans (a b c : Point) (h1 : lexLt a b) (h2 : lexLt b c) : lexLt a c := by
  unfold lexLt at h1 h2 ⊢
  rcases h1 with h1 | ⟨e1, h1⟩ <;> rcases h2 with h2 | ⟨e2, h2⟩
  · exact Or.inl (h1.trans h2)
  · exact Or.inl (e2 ▸ h1)
  · exact Or.inl (e1 ▸ h2)
  · exact Or.inr ⟨e1.trans e2, h1.trans h2⟩

lemma lexLt_asymm (a b : Point) (h1 : lexLt a b) : ¬ lexLt b a := by
  intro h2
  unfold lexLt at h1 h2
  rcases h1 with h1 | ⟨e1, h1⟩ <;> rcases h2 with h2 | ⟨e2, h2⟩ <;> linarith

lemma lexLt_trichotomy (a b : Point) : lexLt a b ∨ a = b ∨ lexLt b a := by
  unfold lexLt
  rcases lt_trichotomy a.1 b.1 with h | h | h
  · exact Or.inl (Or.inl h)
  · rcases lt_trichotomy a.2 b.2 with h2 | h2 | h2
    · exact Or.inl (Or.inr ⟨h, h2⟩)
    · exact Or.inr (Or.inl (Prod.ext h h2))
    · exact Or.inr (Or.inr (Or.inr ⟨h.symm, h2⟩))
  · exact Or.inr (Or.inr (Or.inl h))

/-- Invariant of the fold inside `lexMin`. -/
lemma lexMin_foldl_spec :
    ∀ (ps : List Point) (m : Point),
      let r := ps.foldl (fun m q => if lexLt q m then q else m) m
      (r = m ∨ r ∈ ps) ∧ ¬ lexLt m r ∧ ∀ q ∈ ps, ¬ lexLt q r := by
  intro ps
  induction ps with
  | nil =>
    intro m
    exact ⟨Or.inl rfl, fun h => lexLt_asymm m m h h, by simp⟩
  | cons p ps ih =>
    intro m
    by_cases hp : lexLt p m
    · have h := ih p
      simp only [List.foldl_cons, if_pos hp]
      obtain ⟨hmem, hle, hall⟩ := h
      refine ⟨?_, ?_, ?_⟩
      · rcases hmem with h | h
        · exact Or.inr (by simp [h])
        · exact Or.inr (by simp [h])
      · intro hcon
        rcases lexLt_trichotomy p (ps.foldl (fun m q => if lexLt q m then q else m) p)
          with ht | ht | ht
        · exact hle ht
        · rw [← ht] at hcon; exact lexLt_asymm p m hp hcon
        · exact (lexLt_asymm _ _ (lexLt_trans _ _ _ ht hp)) hcon
      · intro q hq
        rcases List.mem_cons.mp hq with h | h
        · subst h; exact hle
        · exact hall q h
    · have h := ih m
      simp only [List.foldl_cons, if_neg hp]
      obtain ⟨hmem, hle, hall⟩ := h
      refine ⟨?_, hle, ?_⟩
      · rcases hmem with h | h
        · exact Or.inl h
        · exact Or.inr (by simp [h])
      · intro q hq
        rcases List.mem_cons.mp hq with h | h
        · subst h
          intro hcon
          rcases lexLt_trichotomy m (ps.foldl (fun m q => if lexLt q m then q else m) m)
            with ht | ht | ht
          · exact hle ht
          · rw [← ht] at hcon; exact hp hcon
          · exact hp (lexLt_trans _ _ _ hcon ht)
        · exact hall q h

/-- The pivot is an element of the point list. -/
lemma lexMin_mem (l : List Point) (h : l ≠ []) : lexMin l ∈ l := by
  cases l with
  | nil => exact absurd rfl h
  | cons p ps =>
    have he : lexMin (p :: ps) = ps.foldl (fun m q => if lexLt q m then q else m) p := rfl
    rw [he]
    rcases (lexMin_foldl_spec ps p).1 with h2 | h2
    · rw [h2]; exact List.mem_cons_self p ps
    · exact List.mem_cons_of_mem p h2

/-- The pivot is lexicographically minimal. -/
lemma lexMin_le (l : List Point) (q : Point) (hq : q ∈ l) : ¬ lexLt q (lexMin l) := by
  cases l with
  | nil => exact absurd hq (by simp)
  | cons p ps =>
    have he : lexMin (p :: ps) = ps.foldl (fun m q => if lexLt q m then q else m) p := rfl
    rw [he]
    obtain ⟨-, hle, hall⟩ := lexMin_foldl_spec ps p
    rcases List.mem_cons.mp hq with h2 | h2
    · exact h2 ▸ hle
    · exact hall q h2

/-- When `z` is an element and every other element is strictly above it,
`lexMin` returns `z`. -/
lemma lexMin_eq (l : List Point) (z : Point) (hz : z ∈ l)
    (hall : ∀ x ∈ l, x = z ∨ lexLt z x) : lexMin l = z := by
  have hne : l ≠ [] := by intro h; subst h; exact absurd hz (by simp)
  rcases hall (lexMin l) (lexMin_mem l hne) with h | h
  · exact h
  · exact absurd h (lexMin_le l z hz)

/-- Every point surviving the `p != leftp` filter is strictly above the
pivot. -/
lemma filter_lexLt (points : List Point) :
    ∀ p ∈ points.filter (fun p => decide (p ≠ lexMin points)), lexLt (lexMin points) p := by
  intro p hp
  rw [List.mem_filter, decide_eq_true_eq] at hp
  obtain ⟨hmem, hne⟩ := hp
  rcases lexLt_trichotomy p (lexMin points) with h | h | h
  · exact absurd h (lexMin_le points p hmem)
  · exact absurd h hne
  · exact h

/-! ## The polar comparator is a total preorder -/

lemma keyLe_trans (k l m : ℕ × ℚ × ℚ × ℚ) (h1 : keyLe k l) (h2 : keyLe l m) :
    keyLe k m := by
  obtain ⟨k1, k2, k3, k4⟩ := k
  obtain ⟨l1, l2, l3, l4⟩ := l
  obtain ⟨m1, m2, m3, m4⟩ := m
  simp only [keyLe] at h1 h2 ⊢
  rcases h1 with h1 | ⟨e1, h1⟩ <;> rcases h2 with h2 | ⟨e2, h2⟩
  · exact Or.inl (h1.trans h2)
  · exact Or.inl (e2 ▸ h1)
  · exact Or.inl (e1 ▸ h2)
  · refine Or.inr ⟨e1.trans e2, ?_⟩
    rcases h1 with h1 | ⟨f1, h1⟩ <;> rcases h2 with h2 | ⟨f2, h2⟩
    · exact Or.inl (h1.trans h2)
    · exact Or.inl (f2 ▸ h1)
    · exact Or.inl (f1 ▸ h2)
    · refine Or.inr ⟨f1.trans f2, ?_⟩
      rcases h1 with h1 | ⟨g1, h1⟩ <;> rcases h2 with h2 | ⟨g2, h2⟩
      · exact Or.inl (h1.trans h2)
      · exact Or.inl (g2 ▸ h1)
      · exact Or.inl (g1 ▸ h2)
      · exact Or.inr ⟨g1.trans g2, h1.trans h2⟩

lemma keyLe_total (k l : ℕ × ℚ × ℚ × ℚ) : keyLe k l ∨ keyLe l k := by
  obtain ⟨k1, k2, k3, k4⟩ := k
  obtain ⟨l1, l2, l3, l4⟩ := l
  simp only [keyLe]
  rcases lt_trichotomy k1 l1 with h1 | h1 | h1
  · exact Or.inl (Or.inl h1)
  · rcases lt_trichotomy k2 l2 with h2 | h2 | h2
    · exact Or.inl (Or.inr ⟨h1, Or.inl h2⟩)
    · rcases lt_trichotomy k3 l3 with h3 | h3 | h3
      · exact Or.inl (Or.inr ⟨h1, Or.inr ⟨h2, Or.inl h3⟩⟩)
      · rcases le_total k4 l4 with h4 | h4
        · exact Or.inl (Or.inr ⟨h1, Or.inr ⟨h2, Or.inr ⟨h3, h4⟩⟩⟩)
        · exact Or.inr (Or.inr ⟨h1.symm, Or.inr ⟨h2.symm, Or.inr ⟨h3.symm, h4⟩⟩⟩)
      · exact Or.inr (Or.inr ⟨h1.symm, Or.inr ⟨h2.symm, Or.inl h3⟩⟩)
    · exact Or.inr (Or.inr ⟨h1.symm, Or.inl h2⟩)
  · exact Or.inr (Or.inl h1)

lemma keyLe_antisymm (k l : ℕ × ℚ × ℚ × ℚ) (h1 : keyLe k l) (h2 : keyLe l k) :
    k = l := by
  obtain ⟨k1, k2, k3, k4⟩ := k
  obtain ⟨l1, l2, l3, l4⟩ := l
  simp only [keyLe] at h1 h2
  simp only [Prod.mk.injEq]
  rcases h1 with h1 | ⟨e1, h1⟩
  · rcases h2 with h2 | ⟨e2, h2⟩
    · exact absurd h2 (Nat.lt_asymm h1)
    · exact absurd e2.symm (Nat.ne_of_lt h1)
  · rcases h2 with h2 | ⟨e2, h2⟩
    · exact absurd h2 (e1 ▸ Nat.lt_irrefl k1)
    · refine ⟨e1, ?_⟩
      rcases h1 with h1 | ⟨f1, h1⟩
      · rcases h2 with h2 | ⟨f2, h2⟩
        · exact absurd h2 (lt_asymm h1)
        · exact absurd f2.symm (ne_of_lt h1)
      · rcases h2 with h2 | ⟨f2, h2⟩
        · exact absurd h2 (f1 ▸ lt_irrefl k2)
        · refine ⟨f1, ?_⟩
          rcases h1 with h1 | ⟨g1, h1⟩
          · rcases h2 with h2 | ⟨g2, h2⟩
            · exact absurd h2 (lt_asymm h1)
            · exact absurd g2.symm (ne_of_lt h1)
          · rcases h2 with h2 | ⟨g2, h2⟩
            · exact absurd h2 (g1 ▸ lt_irrefl k3)
            · exact ⟨g1, le_antisymm h1 h2⟩

lemma polarLe_trans (z a b c : Point) (h1 : polarLe z a b = true)
    (h2 : polarLe z b c = true) : polarLe z a c = true := by
  rw [polarLe, decide_eq_true_eq] at h1 h2 ⊢
  exact keyLe_trans _ _ _ h1 h2

lemma polarLe_total (z a b : Point) : polarLe z a b = true ∨ polarLe z b a = true := by
  rw [polarLe, polarLe, decide_eq_true_eq, decide_eq_true_eq]
  exact keyLe_total _ _

/-- The sort key determines the point (its last two components are the
coordinates), so the comparator is antisymmetric. -/
lemma polarLe_antisymm (z a b : Point) (h1 : polarLe z a b = true)
    (h2 : polarLe z b a = true) : a = b := by
  rw [polarLe, decide_eq_true_eq] at h1 h2
  have h := keyLe_antisymm _ _ h1 h2
  simp only [sortKey, Prod.mk.injEq] at h
  exact Prod.ext h.2.2.1 h.2.2.2

/-! ## The angular key against the cross product

All offsets produced inside `convex_hull_graham_scan` lie in the closed
right half plane minus the non-positive x-axis (`0 < x`, or `x = 0 ∧ 0 < y`),
because the pivot is the lexicographic minimum.  On that domain the key
`(atanTag, atanSlope)` orders offsets exactly as `atan2` does, and the order
is characterized by the sign of the cross product. -/

lemma atanTag_of_neg (u : Point) (h : u.2 < 0) : atanTag u = 0 := by
  simp [atanTag, h]

lemma atanTag_of_zero (u : Point) (h2 : u.2 = 0) (h1 : 0 ≤ u.1) : atanTag u = 1 := by
  rw [atanTag, if_neg (by rw [h2]; exact lt_irrefl 0), if_pos ⟨h2, h1⟩]

lemma atanTag_of_pos (u : Point) (h : 0 < u.2) : atanTag u = 2 := by
  rw [atanTag, if_neg (by linarith), if_neg (by rintro ⟨h0, -⟩; linarith),
    if_pos h]

lemma atanSlope_of_ne (u : Point) (h : u.2 ≠ 0) : atanSlope u = -(u.1 / u.2) := by
  simp [atanSlope, h]

lemma slope_le_cross (u1 u2 v1 v2 : ℚ) (hu2 : u2 ≠ 0) (hv2 : v2 ≠ 0)
    (hprod : 0 < u2 * v2) (hs : -(u1 / u2) ≤ -(v1 / v2)) :
    0 ≤ u1 * v2 - u2 * v1 := by
  have key : v1 / v2 ≤ u1 / u2 := by linarith
  have h := mul_le_mul_of_nonneg_left key (le_of_lt hprod)
  have e1 : u2 * v2 * (v1 / v2) = u2 * v1 := by
    field_simp
    ring
  have e2 : u2 * v2 * (u1 / u2) = u1 * v2 := by
    field_simp
    ring
  rw [e1, e2] at h
  linarith

lemma cross_eq_slope (u1 u2 v1 v2 : ℚ) (hu2 : u2 ≠ 0) (hv2 : v2 ≠ 0)
    (hc : u1 * v2 - u2 * v1 = 0) : -(u1 / u2) = -(v1 / v2) := by
  field_simp
  linarith

/-- On the scan's offset domain, key order implies a non-negative cross
product (equivalently, the `atan2` order of such offsets is the
counterclockwise order). -/
lemma keyPair_cross_nonneg (u1 u2 v1 v2 : ℚ)
    (hu : 0 < u1 ∨ (u1 = 0 ∧ 0 < u2)) (hv : 0 < v1 ∨ (v1 = 0 ∧ 0 < v2))
    (h : atanTag (u1, u2) < atanTag (v1, v2) ∨
      (atanTag (u1, u2) = atanTag (v1, v2) ∧
        (atanSlope (u1, u2) < atanSlope (v1, v2) ∨
         atanSlope (u1, u2) = atanSlope (v1, v2)))) :
    0 ≤ u1 * v2 - u2 * v1 := by
  have hu1 : 0 ≤ u1 := by rcases hu with h1 | ⟨h1, -⟩ <;> linarith
  have hv1 : 0 ≤ v1 := by rcases hv with h1 | ⟨h1, -⟩ <;> linarith
  rcases lt_trichotomy u2 0 with hu2 | hu2 | hu2 <;>
    rcases lt_trichotomy v2 0 with hv2 | hv2 | hv2
  · -- u2 < 0, v2 < 0 : both tag 0, compare slopes
    have hu1p : 0 < u1 := by rcases hu with h1 | ⟨-, h1⟩; exact h1; linarith
    have hv1p : 0 < v1 := by rcases hv with h1 | ⟨-, h1⟩; exact h1; linarith
    rw [atanTag_of_neg (u1, u2) hu2, atanTag_of_neg (v1, v2) hv2] at h
    rcases h with h | ⟨-, hs⟩
    · exact absurd h (lt_irrefl 0)
    · rw [atanSlope_of_ne (u1, u2) (ne_of_lt hu2),
        atanSlope_of_ne (v1, v2) (ne_of_lt hv2)] at hs
      exact slope_le_cross u1 u2 v1 v2 (ne_of_lt hu2) (ne_of_lt hv2)
        (mul_pos_of_neg_of_neg hu2 hv2)
        (by rcases hs with h1 | h1; exact le_of_lt h1; exact le_of_eq h1)
  · -- u2 < 0, v2 = 0 : cross is -u2 * v1 > 0
    have hv1p : 0 < v1 := by rcases hv with h1 | ⟨-, h1⟩; exact h1; linarith
    nlinarith [mul_pos (neg_pos.mpr hu2) hv1p]
  · -- u2 < 0, v2 > 0
    have hu1p : 0 < u1 := by rcases hu with h1 | ⟨-, h1⟩; exact h1; linarith
    nlinarith [mul_pos hu1p hv2, mul_nonneg (le_of_lt (neg_pos.mpr hu2)) hv1]
  · -- u2 = 0, v2 < 0 : tag 1 against tag 0, impossible
    rw [atanTag_of_zero (u1, u2) hu2 hu1, atanTag_of_neg (v1, v2) hv2] at h
    rcases h with h | ⟨h, -⟩ <;> omega
  · -- u2 = 0, v2 = 0
    rw [hu2, hv2]
    ring_nf
    exact le_refl 0
  · -- u2 = 0, v2 > 0 : cross is u1 * v2 > 0
    have hu1p : 0 < u1 := by rcases hu with h1 | ⟨-, h1⟩; exact h1; linarith
    nlinarith [mul_pos hu1p hv2]
  · -- u2 > 0, v2 < 0 : tag 2 against tag 0, impossible
    rw [atanTag_of_pos (u1, u2) hu2, atanTag_of_neg (v1, v2) hv2] at h
    rcases h with h | ⟨h, -⟩ <;> omega
  · -- u2 > 0, v2 = 0 : tag 2 against tag 1, impossible
    rw [atanTag_of_pos (u1, u2) hu2, atanTag_of_zero (v1, v2) hv2 hv1] at h
    rcases h with h | ⟨h, -⟩ <;> omega
  · -- u2 > 0, v2 > 0 : both tag 2, compare slopes
    rw [atanTag_of_pos (u1, u2) hu2, atanTag_of_pos (v1, v2) hv2] at h
    rcases h with h | ⟨-, hs⟩
    · exact absurd h (lt_irrefl 2)
    · rw [atanSlope_of_ne (u1, u2) (ne_of_gt hu2),
        atanSlope_of_ne (v1, v2) (ne_of_gt hv2)] at hs
      exact slope_le_cross u1 u2 v1 v2 (ne_of_gt hu2) (ne_of_gt hv2)
        (mul_pos hu2 hv2)
        (by rcases hs with h1 | h1; exact le_of_lt h1; exact le_of_eq h1)

/-- On the scan's offset domain, a vanishing cross product forces equal tags
and equal slopes (the two offsets lie on one ray from the origin). -/
lemma keyPair_collinear (u1 u2 v1 v2 : ℚ)
    (hu : 0 < u1 ∨ (u1 = 0 ∧ 0 < u2)) (hv : 0 < v1 ∨ (v1 = 0 ∧ 0 < v2))
    (hc : u1 * v2 - u2 * v1 = 0) :
    atanTag (u1, u2) = atanTag (v1, v2) ∧ atanSlope (u1, u2) = atanSlope (v1, v2) := by
  have hu1 : 0 ≤ u1 := by rcases hu with h1 | ⟨h1, -⟩ <;> linarith
  have hv1 : 0 ≤ v1 := by rcases hv with h1 | ⟨h1, -⟩ <;> linarith
  rcases lt_trichotomy u2 0 with hu2 | hu2 | hu2 <;>
    rcases lt_trichotomy v2 0 with hv2 | hv2 | hv2
  · -- u2 < 0, v2 < 0
    rw [atanTag_of_neg (u1, u2) hu2, atanTag_of_neg (v1, v2) hv2,
      atanSlope_of_ne (u1, u2) (ne_of_lt hu2), atanSlope_of_ne (v1, v2) (ne_of_lt hv2)]
    exact ⟨rfl, cross_eq_slope u1 u2 v1 v2 (ne_of_lt hu2) (ne_of_lt hv2) hc⟩
  · -- u2 < 0, v2 = 0 : impossible, cross is -u2 * v1 > 0
    have hv1p : 0 < v1 := by rcases hv with h1 | ⟨-, h1⟩; exact h1; linarith
    exact absurd hc (by nlinarith [mul_pos (neg_pos.mpr hu2) hv1p])
  · -- u2 < 0, v2 > 0 : impossible
    have hu1p : 0 < u1 := by rcases hu with h1 | ⟨-, h1⟩; exact h1; linarith
    exact absurd hc
      (by nlinarith [mul_pos hu1p hv2, mul_nonneg (le_of_lt (neg_pos.mpr hu2)) hv1])
  · -- u2 = 0, v2 < 0 : impossible (cross is u1 * v2 < 0)
    have hu1p : 0 < u1 := by rcases hu with h1 | ⟨-, h1⟩; exact h1; linarith
    exact absurd hc (by nlinarith [mul_pos hu1p (neg_pos.mpr hv2)])
  · -- u2 = 0, v2 = 0
    rw [atanTag_of_zero (u1, u2) hu2 hu1, atanTag_of_zero (v1, v2) hv2 hv1]
    have e1 : atanSlope (u1, u2) = 0 := by simp [atanSlope, hu2]
    have e2 : atanSlope (v1, v2) = 0 := by simp [atanSlope, hv2]
    rw [e1, e2]
    exact ⟨rfl, rfl⟩
  · -- u2 = 0, v2 > 0 : impossible (cross is u1 * v2 with u1 > 0)
    have hu1p : 0 < u1 := by rcases hu with h1 | ⟨-, h1⟩; exact h1; linarith
    exact absurd hc (by nlinarith [mul_pos hu1p hv2])
  · -- u2 > 0, v2 < 0 : impossible
    have hv1p : 0 < v1 := by rcases hv with h1 | ⟨-, h1⟩; exact h1; linarith
    exact absurd hc (by nlinarith [mul_pos hu2 hv1p, mul_nonneg hu1 (le_of_lt (neg_pos.mpr hv2))])
  · -- u2 > 0, v2 = 0 : impossible
    have hv1p : 0 < v1 := by rcases hv with h1 | ⟨-, h1⟩; exact h1; linarith
    exact absurd hc (by nlinarith [mul_pos hu2 hv1p])
  · -- u2 > 0, v2 > 0
    rw [atanTag_of_pos (u1, u2) hu2, atanTag_of_pos (v1, v2) hv2,
      atanSlope_of_ne (u1, u2) (ne_of_gt hu2), atanSlope_of_ne (v1, v2) (ne_of_gt hv2)]
    exact ⟨rfl, cross_eq_slope u1 u2 v1 v2 (ne_of_gt hu2) (ne_of_gt hv2) hc⟩

/-- On the scan's offset domain, collinear offsets ordered by the sort key
are positive multiples of each other, with factor at most one: the earlier
offset lies on the segment from the origin to the later one. -/
lemma keyPair_segment (u1 u2 v1 v2 : ℚ)
    (hu : 0 < u1 ∨ (u1 = 0 ∧ 0 < u2)) (hv : 0 < v1 ∨ (v1 = 0 ∧ 0 < v2))
    (hc : u1 * v2 - u2 * v1 = 0)
    (hcoord : u1 < v1 ∨ (u1 = v1 ∧ u2 ≤ v2)) :
    ∃ μ : ℚ, 0 ≤ μ ∧ μ ≤ 1 ∧ u1 = μ * v1 ∧ u2 = μ * v2 := by
  have hu1 : 0 ≤ u1 := by rcases hu with h1 | ⟨h1, -⟩ <;> linarith
  rcases hv with hv1 | ⟨hv10, hv2⟩
  · refine ⟨u1 / v1, div_nonneg hu1 (le_of_lt hv1), ?_, ?_, ?_⟩
    · rw [div_le_one hv1]
      rcases hcoord with h1 | ⟨h1, -⟩
      · exact le_of_lt h1
      · exact le_of_eq h1
    · field_simp
    · rw [div_mul_eq_mul_div, eq_div_iff (ne_of_gt hv1)]
      linarith
  · have hu10 : u1 = 0 := by
      have h0 : u1 * v2 = 0 := by rw [hv10] at hc; linarith
      rcases mul_eq_zero.mp h0 with h1 | h1
      · exact h1
      · exact absurd h1 (ne_of_gt hv2)
    have hu2p : 0 < u2 := by
      rcases hu with h1 | ⟨-, h1⟩
      · exact absurd hu10 (ne_of_gt h1)
      · exact h1
    refine ⟨u2 / v2, div_nonneg (le_of_lt hu2p) (le_of_lt hv2), ?_, ?_, ?_⟩
    · rw [div_le_one hv2]
      rcases hcoord with h1 | ⟨-, h1⟩
      · exfalso; rw [hu10, hv10] at h1; exact lt_irrefl 0 h1
      · exact h1
    · rw [hu10, hv10]; ring
    · field_simp

/-- Unpacking the Boolean comparator into tag, slope and coordinate facts. -/
lemma polarLe_destruct (z a b : Point) (h : polarLe z a b = true) :
    atanTag (a.1 - z.1, a.2 - z.2) < atanTag (b.1 - z.1, b.2 - z.2) ∨
    (atanTag (a.1 - z.1, a.2 - z.2) = atanTag (b.1 - z.1, b.2 - z.2) ∧
      (atanSlope (a.1 - z.1, a.2 - z.2) < atanSlope (b.1 - z.1, b.2 - z.2) ∨
       (atanSlope (a.1 - z.1, a.2 - z.2) = atanSlope (b.1 - z.1, b.2 - z.2) ∧
         (a.1 < b.1 ∨ (a.1 = b.1 ∧ a.2 ≤ b.2))))) := by
  rw [polarLe, decide_eq_true_eq] at h
  simp only [sortKey, keyLe] at h
  exact h

lemma lexLt_offset (z a : Point) (h : lexLt z a) :
    0 < a.1 - z.1 ∨ (a.1 - z.1 = 0 ∧ 0 < a.2 - z.2) := by
  rcases h with h | ⟨h1, h2⟩
  · exact Or.inl (by linarith)
  · exact Or.inr ⟨by linarith, by linarith⟩

/-- Sorting before `b` around the pivot `z` means turning counterclockwise
(or being collinear): the cross product is non-negative. -/
lemma polarLe_cross_nonneg (z a b : Point) (ha : lexLt z a) (hb : lexLt z b)
    (h : polarLe z a b = true) : 0 ≤ cross3 z a b := by
  have hd := polarLe_destruct z a b h
  show 0 ≤ (a.1 - z.1) * (b.2 - z.2) - (a.2 - z.2) * (b.1 - z.1)
  apply keyPair_cross_nonneg _ _ _ _ (lexLt_offset z a ha) (lexLt_offset z b hb)
  rcases hd with h1 | ⟨ht, hs⟩
  · exact Or.inl h1
  · refine Or.inr ⟨ht, ?_⟩
    rcases hs with h1 | ⟨h1, -⟩
    · exact Or.inl h1
    · exact Or.inr h1

/-- Sorting before `b` around `z` while collinear with it places `a` on the
segment from `z` to `b`. -/
lemma polarLe_segment (z a b : Point) (ha : lexLt z a) (hb : lexLt z b)
    (h : polarLe z a b = true) (hc : cross3 z a b = 0) :
    ∃ μ : ℚ, 0 ≤ μ ∧ μ ≤ 1 ∧
      a.1 - z.1 = μ * (b.1 - z.1) ∧ a.2 - z.2 = μ * (b.2 - z.2) := by
  have hd := polarLe_destruct z a b h
  have hcc : (a.1 - z.1) * (b.2 - z.2) - (a.2 - z.2) * (b.1 - z.1) = 0 := hc
  have hcol := keyPair_collinear _ _ _ _ (lexLt_offset z a ha) (lexLt_offset z b hb) hcc
  have hcoord : a.1 < b.1 ∨ (a.1 = b.1 ∧ a.2 ≤ b.2) := by
    rcases hd with h1 | ⟨-, hs⟩
    · exact absurd hcol.1 (Nat.ne_of_lt h1)
    · rcases hs with h1 | ⟨-, hcoord⟩
      · exact absurd hcol.2 (ne_of_lt h1)
      · exact hcoord
  exact keyPair_segment _ _ _ _ (lexLt_offset z a ha) (lexLt_offset z b hb) hcc
    (by rcases hcoord with h1 | ⟨h1, h2⟩
        · exact Or.inl (by linarith)
        · exact Or.inr ⟨by linarith, by linarith⟩)

/-! ## The stable insertion sort -/

lemma insertLe_perm (le : Point → Point → Bool) (x : Point) :
    ∀ l : List Point, (insertLe le x l).Perm (x :: l) := by
  intro l
  induction l with
  | nil => exact List.Perm.refl _
  | cons y ys ih =>
    unfold insertLe
    by_cases h : le y x
    · rw [if_pos h]
      exact (ih.cons y).trans (List.Perm.swap x y ys)
    · rw [if_neg h]

lemma stableSort_perm (le : Point → Point → Bool) (l : List Point) :
    (stableSort le l).Perm l := by
  have aux : ∀ (l acc : List Point),
      (l.foldl (fun acc x => insertLe le x acc) acc).Perm (acc ++ l) := by
    intro l
    induction l with
    | nil => intro acc; simp
    | cons x l ih =>
      intro acc
      have h1 := ih (insertLe le x acc)
      have h2 : (insertLe le x acc ++ l).Perm (acc ++ x :: l) := by
        refine ((insertLe_perm le x acc).append_right l).trans ?_
        exact (List.perm_middle).symm
      exact h1.trans h2
  simpa using aux l []

lemma insertLe_sorted (le : Point → Point → Bool)
    (htot : ∀ a b, le a b = true ∨ le b a = true)
    (htrans : ∀ a b c, le a b = true → le b c = true → le a c = true)
    (x : Point) :
    ∀ l : List Point, l.Pairwise (fun a b => le a b = true) →
      (insertLe le x l).Pairwise (fun a b => le a b = true) := by
  intro l
  induction l with
  | nil => intro _; simp [insertLe]
  | cons y ys ih =>
    intro hp
    rw [List.pairwise_cons] at hp
    obtain ⟨hy, hys⟩ := hp
    unfold insertLe
    by_cases h : le y x
    · rw [if_pos h]
      refine List.pairwise_cons.mpr ⟨?_, ih hys⟩
      intro b hb
      rcases List.mem_cons.mp ((insertLe_perm le x ys).mem_iff.mp hb) with h1 | h1
      · exact h1 ▸ h
      · exact hy b h1
    · rw [if_neg h]
      have hxy : le x y = true := (htot x y).resolve_right h
      refine List.pairwise_cons.mpr ⟨?_, List.pairwise_cons.mpr ⟨hy, hys⟩⟩
      intro b hb
      rcases List.mem_cons.mp hb with h1 | h1
      · exact h1 ▸ hxy
      · exact htrans x y b hxy (hy b h1)

lemma stableSort_sorted (le : Point → Point → Bool)
    (htot : ∀ a b, le a b = true ∨ le b a = true)
    (htrans : ∀ a b c, le a b = true → le b c = true → le a c = true)
    (l : List Point) :
    (stableSort le l).Pairwise (fun a b => le a b = true) := by
  have aux : ∀ (l acc : List Point), acc.Pairwise (fun a b => le a b = true) →
      (l.foldl (fun acc x => insertLe le x acc) acc).Pairwise
        (fun a b => le a b = true) := by
    intro l
    induction l with
    | nil => intro acc h; simpa using h
    | cons x l ih =>
      intro acc h
      exact ih (insertLe le x acc) (insertLe_sorted le htot htrans x acc h)
  exact aux l [] List.Pairwise.nil

lemma insertLe_append (le : Point → Point → Bool) (x : Point) :
    ∀ pre : List Point, (∀ y ∈ pre, le y x = true) →
      insertLe le x pre = pre ++ [x] := by
  intro pre
  induction pre with
  | nil => intro _; rfl
  | cons y ys ih =>
    intro h
    unfold insertLe
    rw [if_pos (h y (by simp)), ih (fun b hb => h b (by simp [hb]))]
    rfl

/-- A stable insertion sort leaves an already-sorted list unchanged. -/
lemma stableSort_of_sorted (le : Point → Point → Bool) (l : List Point)
    (h : l.Pairwise (fun a b => le a b = true)) : stableSort le l = l := by
  have aux : ∀ (l pre : List Point),
      (pre ++ l).Pairwise (fun a b => le a b = true) →
      l.foldl (fun acc x => insertLe le x acc) pre = pre ++ l := by
    intro l
    induction l with
    | nil => intro pre _; simp
    | cons x l ih =>
      intro pre hp
      have hyx : ∀ y ∈ pre, le y x = true := by
        intro y hy
        have := (List.pairwise_append.mp hp).2.2
        exact this y hy x (by simp)
      rw [List.foldl_cons, insertLe_append le x pre hyx, ih (pre ++ [x]) (by simpa using hp)]
      simp
  simpa using aux l [] (by simpa using h)

/-! ## Convex-hull membership from cross-product inequalities -/

lemma mem_segment_param (z w q : Point) (μ : ℚ) (h0 : 0 ≤ μ) (h1 : μ ≤ 1)
    (hq1 : q.1 - z.1 = μ * (w.1 - z.1)) (hq2 : q.2 - z.2 = μ * (w.2 - z.2)) :
    q ∈ segment ℚ z w := by
  refine ⟨1 - μ, μ, by linarith, h0, by ring, ?_⟩
  apply Prod.ext
  · show ((1 - μ) • z + μ • w).1 = q.1
    rw [Prod.fst_add, Prod.smul_fst, Prod.smul_fst, smul_eq_mul, smul_eq_mul]
    linear_combination (-1 : ℚ) * hq1
  · show ((1 - μ) • z + μ • w).2 = q.2
    rw [Prod.snd_add, Prod.smul_snd, Prod.smul_snd, smul_eq_mul, smul_eq_mul]
    linear_combination (-1 : ℚ) * hq2

lemma mem_convexHull_segment (s : Set Point) (z w q : Point)
    (hz : z ∈ convexHull ℚ s) (hw : w ∈ convexHull ℚ s) (μ : ℚ)
    (h0 : 0 ≤ μ) (h1 : μ ≤ 1)
    (hq1 : q.1 - z.1 = μ * (w.1 - z.1)) (hq2 : q.2 - z.2 = μ * (w.2 - z.2)) :
    q ∈ convexHull ℚ s :=
  (convex_convexHull ℚ s).segment_subset hz hw
    (mem_segment_param z w q μ h0 h1 hq1 hq2)

/-- Barycentric containment: when the three sub-triangle areas of `t`
against the counterclockwise triangle `(z, u, w)` are non-negative and the
triangle is non-degenerate, `t` is a convex combination of `z`, `u`, `w`. -/
lemma mem_convexHull_triangle (s : Set Point) (z u w t : Point)
    (hz : z ∈ convexHull ℚ s) (hu : u ∈ convexHull ℚ s) (hw : w ∈ convexHull ℚ s)
    (h1 : 0 ≤ cross3 t u w) (h2 : 0 ≤ cross3 z t w) (h3 : 0 ≤ cross3 z u t)
    (hD : 0 < cross3 z u w) : t ∈ convexHull ℚ s := by
  have hsum : cross3 t u w + cross3 z t w + cross3 z u t = cross3 z u w := by
    unfold cross3; ring
  have hco1 : cross3 t u w * z.1 + cross3 z t w * u.1 + cross3 z u t * w.1 =
      cross3 z u w * t.1 := by
    unfold cross3; ring
  have hco2 : cross3 t u w * z.2 + cross3 z t w * u.2 + cross3 z u t * w.2 =
      cross3 z u w * t.2 := by
    unfold cross3; ring
  have hDne : cross3 z u w ≠ 0 := ne_of_gt hD
  by_cases hc23 : cross3 z t w + cross3 z u t = 0
  · have hc2 : cross3 z t w = 0 := by linarith
    have hc3 : cross3 z u t = 0 := by linarith
    have hc1D : cross3 t u w = cross3 z u w := by linarith
    rw [hc2, hc3, hc1D] at hco1 hco2
    have ht1 : t.1 = z.1 := by
      have h' : cross3 z u w * z.1 = cross3 z u w * t.1 := by linarith
      exact (mul_left_cancel₀ hDne h').symm
    have ht2 : t.2 = z.2 := by
      have h' : cross3 z u w * z.2 = cross3 z u w * t.2 := by linarith
      exact (mul_left_cancel₀ hDne h').symm
    rw [show t = z from Prod.ext ht1 ht2]
    exact hz
  · have hc23p : 0 < cross3 z t w + cross3 z u t :=
      lt_of_le_of_ne (by linarith) (Ne.symm hc23)
    have hc23ne : cross3 z t w + cross3 z u t ≠ 0 := ne_of_gt hc23p
    set m : Point :=
      ((cross3 z t w * u.1 + cross3 z u t * w.1) / (cross3 z t w + cross3 z u t),
       (cross3 z t w * u.2 + cross3 z u t * w.2) / (cross3 z t w + cross3 z u t))
      with hm
    have hmseg : m ∈ segment ℚ u w := by
      refine ⟨cross3 z t w / (cross3 z t w + cross3 z u t),
        cross3 z u t / (cross3 z t w + cross3 z u t),
        div_nonneg h2 (le_of_lt hc23p), div_nonneg h3 (le_of_lt hc23p), ?_, ?_⟩
      · rw [div_add_div_same, div_self hc23ne]
      · apply Prod.ext
        · show (_ • u + _ • w).1 = m.1
          rw [Prod.fst_add, Prod.smul_fst, Prod.smul_fst, smul_eq_mul, smul_eq_mul, hm]
          rw [div_mul_eq_mul_div, div_mul_eq_mul_div, div_add_div_same]
        · show (_ • u + _ • w).2 = m.2
          rw [Prod.snd_add, Prod.smul_snd, Prod.smul_snd, smul_eq_mul, smul_eq_mul, hm]
          rw [div_mul_eq_mul_div, div_mul_eq_mul_div, div_add_div_same]
    have hmhull : m ∈ convexHull ℚ s :=
      (convex_convexHull ℚ s).segment_subset hu hw hmseg
    have htseg : t ∈ segment ℚ z m := by
      refine ⟨cross3 t u w / cross3 z u w,
        (cross3 z t w + cross3 z u t) / cross3 z u w,
        div_nonneg h1 (le_of_lt hD), div_nonneg (le_of_lt hc23p) (le_of_lt hD), ?_, ?_⟩
      · rw [div_add_div_same]
        rw [show cross3 t u w + (cross3 z t w + cross3 z u t) = cross3 z u w by linarith]
        exact div_self hDne
      · apply Prod.ext
        · show (_ • z + _ • m).1 = t.1
          rw [Prod.fst_add, Prod.smul_fst, Prod.smul_fst, smul_eq_mul, smul_eq_mul, hm]
          have hstep : (cross3 z t w + cross3 z u t) / cross3 z u w *
              ((cross3 z t w * u.1 + cross3 z u t * w.1) / (cross3 z t w + cross3 z u t)) =
              (cross3 z t w * u.1 + cross3 z u t * w.1) / cross3 z u w := by
            rw [div_mul_div_comm,
              mul_comm (cross3 z t w + cross3 z u t)
                (cross3 z t w * u.1 + cross3 z u t * w.1),
              mul_div_mul_right _ _ hc23ne]
          rw [hstep, div_mul_eq_mul_div, div_add_div_same]
          rw [show cross3 t u w * z.1 + (cross3 z t w * u.1 + cross3 z u t * w.1) =
              cross3 z u w * t.1 by linarith]
          rw [mul_comm, mul_div_assoc, div_self hDne, mul_one]
        · show (_ • z + _ • m).2 = t.2
          rw [Prod.snd_add, Prod.smul_snd, Prod.smul_snd, smul_eq_mul, smul_eq_mul, hm]
          have hstep : (cross3 z t w + cross3 z u t) / cross3 z u w *
              ((cross3 z t w * u.2 + cross3 z u t * w.2) / (cross3 z t w + cross3 z u t)) =
              (cross3 z t w * u.2 + cross3 z u t * w.2) / cross3 z u w := by
            rw [div_mul_div_comm,
              mul_comm (cross3 z t w + cross3 z u t)
                (cross3 z t w * u.2 + cross3 z u t * w.2),
              mul_div_mul_right _ _ hc23ne]
          rw [hstep, div_mul_eq_mul_div, div_add_div_same]
          rw [show cross3 t u w * z.2 + (cross3 z t w * u.2 + cross3 z u t * w.2) =
              cross3 z u w * t.2 by linarith]
          rw [mul_comm, mul_div_assoc, div_self hDne, mul_one]
    exact (convex_convexHull ℚ s).segment_subset hz hmhull htseg

/-! ## The scan stack -/

lemma cross3_swap_left (a b c : Point) : cross3 a b c = -(cross3 b a c) := by
  unfold cross3; ring

lemma cross3_bary (z b pt a : Point) :
    cross3 a b pt + cross3 z a pt + cross3 z b a = cross3 z b pt := by
  unfold cross3; ring

lemma popWhile_suffix (pt : Point) : ∀ l : List Point, (popWhile pt l).IsSuffix l := by
  intro l
  induction l with
  | nil => exact List.suffix_refl _
  | cons x l ih =>
    cases l with
    | nil => exact List.suffix_refl _
    | cons y l2 =>
      show (popWhile pt (x :: y :: l2)).IsSuffix _
      unfold popWhile
      by_cases hc : orientation y x pt ≠ 2
      · rw [if_pos hc]
        exact ih.trans (List.suffix_cons x (y :: l2))
      · rw [if_neg hc]

lemma popWhile_ne_nil (pt : Point) : ∀ l : List Point, l ≠ [] → popWhile pt l ≠ [] := by
  intro l
  induction l with
  | nil => intro h; exact absurd rfl h
  | cons x l ih =>
    intro _
    cases l with
    | nil => simp [popWhile]
    | cons y l2 =>
      show popWhile pt (x :: y :: l2) ≠ []
      unfold popWhile
      by_cases hc : orientation y x pt ≠ 2
      · rw [if_pos hc]
        exact ih (by simp)
      · rw [if_neg hc]
        simp

/-- When the pop loop stops with at least two entries left, the top two
entries make a strict counterclockwise turn with the incoming point. -/
lemma popWhile_stop (pt : Point) : ∀ (l : List Point) (a b : Point) (rest : List Point),
    popWhile pt l = a :: b :: rest → orientation b a pt = 2 := by
  intro l
  induction l with
  | nil => intro a b rest h; exact absurd h (by simp [popWhile])
  | cons x l ih =>
    intro a b rest h
    cases l with
    | nil => exact absurd h (by simp [popWhile])
    | cons y l2 =>
      rw [show popWhile pt (x :: y :: l2) =
          if orientation y x pt ≠ 2 then popWhile pt (y :: l2) else x :: y :: l2
        from rfl] at h
      by_cases hc : orientation y x pt ≠ 2
      · rw [if_pos hc] at h
        exact ih a b rest h
      · rw [if_neg hc] at h
        obtain ⟨h1, h2, -⟩ := List.cons.inj h |>.imp id (fun h' => List.cons.inj h')
        rw [← h1, ← h2]
        exact not_not.mp hc

/-- A nonempty suffix of `W ++ [z]` is `W' ++ [z]` for a suffix `W'` of `W`. -/
lemma suffix_append_singleton (W : List Point) (z : Point) (res : List Point)
    (h : res.IsSuffix (W ++ [z])) (hne : res ≠ []) :
    ∃ W', res = W' ++ [z] ∧ W'.IsSuffix W := by
  obtain ⟨pre, hpre⟩ := h
  rcases List.eq_nil_or_concat res with h0 | ⟨res', x, h0⟩
  · exact absurd h0 hne
  · subst h0
    rw [List.concat_eq_append, ← List.append_assoc] at hpre
    have hinj := List.append_inj' hpre rfl
    obtain ⟨h1, h2⟩ := hinj
    have hx : x = z := by simpa using h2
    subst hx
    exact ⟨res', List.concat_eq_append _ _, ⟨pre, h1⟩⟩

lemma Chain3_tail : ∀ (l : List Point) (a : Point), Chain3 (a :: l) → Chain3 l := by
  intro l a h
  match l with
  | [] => trivial
  | [b] => trivial
  | b :: c :: rest => exact h.2

lemma Chain3_of_append : ∀ (t l : List Point), Chain3 (t ++ l) → Chain3 l := by
  intro t
  induction t with
  | nil => intro l h; exact h
  | cons x t ih => intro l h; exact ih l (Chain3_tail (t ++ l) x h)

lemma Chain3_cons (a : Point) (l : List Point) (h : Chain3 l)
    (hhead : ∀ b c rest, l = b :: c :: rest → 0 < cross3 c b a) : Chain3 (a :: l) := by
  match l with
  | [] => trivial
  | [b] => trivial
  | b :: c :: rest => exact ⟨hhead b c rest rfl, h⟩

lemma Chain3_of_suffix (l l2 : List Point) (h : l2.IsSuffix l) (hc : Chain3 l) :
    Chain3 l2 := by
  obtain ⟨t, ht⟩ := h
  exact Chain3_of_append t l2 (ht ▸ hc)

/-- The inner pop loop, run on a stack `W ++ [z]` whose entries above the
pivot are strictly above it lexicographically, mutually ordered by the polar
comparator (deeper entries earlier), and all sorted before the incoming
point `pt`: the loop removes a prefix of `W`, and every stack entry is a
convex combination of the pivot, the surviving entries and `pt`. -/
lemma popWhile_spec (z pt : Point) (hzpt : lexLt z pt) :
    ∀ (W : List Point),
      (∀ x ∈ W, lexLt z x) →
      W.Pairwise (fun x y => polarLe z y x = true) →
      (∀ x ∈ W, polarLe z x pt = true) →
      ∃ W', popWhile pt (W ++ [z]) = W' ++ [z] ∧ W'.IsSuffix W ∧
        ∀ t ∈ W ++ [z], t ∈ convexHull ℚ (insert pt {x | x ∈ W' ++ [z]}) := by
  intro W
  induction W with
  | nil =>
    intro _ _ _
    refine ⟨[], rfl, List.suffix_refl _, ?_⟩
    intro t ht
    apply subset_convexHull
    simp only [List.nil_append, List.mem_singleton] at ht
    simp [ht]
  | cons a W2 ih =>
    intro hdom hpair hpt
    have hza : lexLt z a := hdom a (by simp)
    have hapt : polarLe z a pt = true := hpt a (by simp)
    cases W2 with
    | nil =>
      -- stack is [a, z]
      by_cases hc : orientation z a pt ≠ 2
      · -- a is popped; it lies on the segment from z to pt
        have heq : popWhile pt ([a] ++ [z]) = [] ++ [z] := by
          show popWhile pt [a, z] = [z]
          rw [show popWhile pt [a, z] =
            if orientation z a pt ≠ 2 then popWhile pt [z] else [a, z] from rfl]
          rw [if_pos hc]
          rfl
        refine ⟨[], heq, List.nil_suffix, ?_⟩
        have hcle : cross3 z a pt ≤ 0 := (orientation_ne_two_iff z a pt).mp hc
        have hcge : 0 ≤ cross3 z a pt := polarLe_cross_nonneg z a pt hza hzpt hapt
        have hc0 : cross3 z a pt = 0 := le_antisymm hcle hcge
        obtain ⟨μ, h0, h1, e1, e2⟩ := polarLe_segment z a pt hza hzpt hapt hc0
        intro t ht
        rcases List.mem_cons.mp ht with h' | h'
        · subst h'
          exact mem_convexHull_segment _ z pt t
            (subset_convexHull ℚ _ (by simp))
            (subset_convexHull ℚ _ (by simp)) μ h0 h1 e1 e2
        · exact subset_convexHull ℚ _ (Set.mem_insert_iff.mpr (Or.inr h'))
      · have heq : popWhile pt ([a] ++ [z]) = [a] ++ [z] := by
          show popWhile pt [a, z] = [a, z]
          rw [show popWhile pt [a, z] =
            if orientation z a pt ≠ 2 then popWhile pt [z] else [a, z] from rfl]
          rw [if_neg hc]
        refine ⟨[a], heq, List.suffix_refl _, ?_⟩
        intro t ht
        exact subset_convexHull ℚ _ (Set.mem_insert_iff.mpr (Or.inr ht))
    | cons b W3 =>
      have hzb : lexLt z b := hdom b (by simp)
      have hbpt : polarLe z b pt = true := hpt b (by simp)
      have hba : polarLe z b a = true := by
        have := (List.pairwise_cons.mp hpair).1
        exact this b (by simp)
      by_cases hc : orientation b a pt ≠ 2
      · -- a is popped
        have heq : popWhile pt ((a :: b :: W3) ++ [z]) =
            popWhile pt ((b :: W3) ++ [z]) := by
          show popWhile pt (a :: b :: (W3 ++ [z])) = popWhile pt (b :: (W3 ++ [z]))
          rw [show popWhile pt (a :: b :: (W3 ++ [z])) =
            if orientation b a pt ≠ 2 then popWhile pt (b :: (W3 ++ [z]))
            else a :: b :: (W3 ++ [z]) from rfl]
          rw [if_pos hc]
        obtain ⟨W', hW', hsuf, hconv⟩ := ih
          (fun x hx => hdom x (by simp [hx]))
          ((List.pairwise_cons.mp hpair).2)
          (fun x hx => hpt x (by simp [hx]))
        refine ⟨W', heq.trans hW', hsuf.trans ((b :: W3).suffix_cons a), ?_⟩
        have hzmem : z ∈ convexHull ℚ (insert pt {x | x ∈ W' ++ [z]}) :=
          subset_convexHull ℚ _ (by simp)
        have hptmem : pt ∈ convexHull ℚ (insert pt {x | x ∈ W' ++ [z]}) :=
          subset_convexHull ℚ _ (by simp)
        intro t ht
        rcases List.mem_cons.mp ht with h' | h'
        · -- t = a, the popped entry
          subst h'
          have hc1 : 0 ≤ cross3 t b pt := by
            rw [cross3_swap_left]
            have := (orientation_ne_two_iff b t pt).mp hc
            linarith
          have hc2 : 0 ≤ cross3 z t pt := polarLe_cross_nonneg z t pt hza hzpt hapt
          have hc3 : 0 ≤ cross3 z b t := polarLe_cross_nonneg z b t hzb hza hba
          by_cases hc20 : cross3 z t pt = 0
          · obtain ⟨μ, h0, h1, e1, e2⟩ := polarLe_segment z t pt hza hzpt hapt hc20
            exact mem_convexHull_segment _ z pt t hzmem hptmem μ h0 h1 e1 e2
          · have hc2p : 0 < cross3 z t pt := lt_of_le_of_ne hc2 (Ne.symm hc20)
            have hD : 0 < cross3 z b pt := by
              have := cross3_bary z b pt t
              linarith
            exact mem_convexHull_triangle _ z b pt t hzmem
              (hconv b (by simp)) hptmem hc1 hc2 hc3 hD
        · exact hconv t h'
      · -- no pop: the stack is unchanged
        have heq : popWhile pt ((a :: b :: W3) ++ [z]) = (a :: b :: W3) ++ [z] := by
          show popWhile pt (a :: b :: (W3 ++ [z])) = a :: b :: (W3 ++ [z])
          rw [show popWhile pt (a :: b :: (W3 ++ [z])) =
            if orientation b a pt ≠ 2 then popWhile pt (b :: (W3 ++ [z]))
            else a :: b :: (W3 ++ [z]) from rfl]
          rw [if_neg hc]
        refine ⟨a :: b :: W3, heq, List.suffix_refl _, ?_⟩
        intro t ht
        exact subset_convexHull ℚ _ (Set.mem_insert_iff.mpr (Or.inr ht))

/-- The scan fold keeps a stack of at least two entries. -/
lemma scan_len : ∀ (R stack : List Point), 2 ≤ stack.length →
    2 ≤ (R.foldl scanStep stack).length := by
  intro R
  induction R with
  | nil => intro stack h; exact h
  | cons pt R' ih =>
    intro stack h
    rw [List.foldl_cons]
    apply ih
    show 2 ≤ (pt :: popWhile pt stack).length
    have hne : popWhile pt stack ≠ [] :=
      popWhile_ne_nil pt stack (by intro h0; rw [h0] at h; simp at h)
    have hpos : 0 < (popWhile pt stack).length := List.length_pos.mpr hne
    simp only [List.length_cons]
    omega

/-- The Graham scan fold.  Starting from a stack `W ++ [z]` (top first,
pivot at the bottom) and scanning the remaining sorted points `R`, the fold
ends in a stack `Wf ++ [z]` whose entries above the pivot are strictly above
it, mutually ordered by the polar comparator, strictly convex as consecutive
triples, drawn in order from the scanned sequence, and such that every point
ever on the stack or in `R` is a convex combination of the final stack. -/
lemma scan_fold (z : Point) :
    ∀ (R W : List Point),
      (∀ x ∈ W, lexLt z x) →
      (∀ r ∈ R, lexLt z r) →
      W.Pairwise (fun x y => polarLe z y x = true) →
      R.Pairwise (fun x y => polarLe z x y = true) →
      (∀ x ∈ W, ∀ r ∈ R, polarLe z x r = true) →
      Chain3 (W ++ [z]) →
      ∃ Wf, R.foldl scanStep (W ++ [z]) = Wf ++ [z] ∧
        (∀ x ∈ Wf, lexLt z x) ∧
        Wf.Pairwise (fun x y => polarLe z y x = true) ∧
        Chain3 (Wf ++ [z]) ∧
        Wf.reverse.Sublist (W.reverse ++ R) ∧
        (∀ t, t ∈ W ++ [z] ∨ t ∈ R → t ∈ convexHull ℚ {x | x ∈ Wf ++ [z]}) := by
  intro R
  induction R with
  | nil =>
    intro W hWdom _ hWpair _ _ hch
    refine ⟨W, rfl, hWdom, hWpair, hch, by simp, ?_⟩
    intro t ht
    rcases ht with ht | ht
    · exact subset_convexHull ℚ _ ht
    · exact absurd ht (by simp)
  | cons pt R' ih =>
    intro W hWdom hRdom hWpair hRpair hWR hch
    have hzpt : lexLt z pt := hRdom pt (by simp)
    obtain ⟨W', hW'eq, hW'suf, hW'conv⟩ := popWhile_spec z pt hzpt W hWdom hWpair
      (fun x hx => hWR x hx pt (by simp))
    have hW'sub : W'.Sublist W := hW'suf.sublist
    have hstep : (pt :: R').foldl scanStep (W ++ [z]) =
        R'.foldl scanStep ((pt :: W') ++ [z]) := by
      rw [List.foldl_cons]
      congr 1
      show scanStep (W ++ [z]) pt = (pt :: W') ++ [z]
      unfold scanStep
      rw [hW'eq]
      rfl
    have hnewdom : ∀ x ∈ pt :: W', lexLt z x := by
      intro x hx
      rcases List.mem_cons.mp hx with h | h
      · exact h ▸ hzpt
      · exact hWdom x (hW'sub.subset h)
    have hnewpair : (pt :: W').Pairwise (fun x y => polarLe z y x = true) := by
      refine List.pairwise_cons.mpr ⟨?_, List.Pairwise.sublist hW'sub hWpair⟩
      intro y hy
      exact hWR y (hW'sub.subset hy) pt (by simp)
    have hRhead : ∀ r ∈ R', polarLe z pt r = true :=
      (List.pairwise_cons.mp hRpair).1
    have hnewWR : ∀ x ∈ pt :: W', ∀ r ∈ R', polarLe z x r = true := by
      intro x hx r hr
      rcases List.mem_cons.mp hx with h | h
      · exact h ▸ hRhead r hr
      · exact hWR x (hW'sub.subset h) r (by simp [hr])
    have hnewch : Chain3 ((pt :: W') ++ [z]) := by
      show Chain3 (pt :: (W' ++ [z]))
      refine Chain3_cons pt (W' ++ [z]) ?_ ?_
      · exact Chain3_of_suffix _ _ (hW'eq ▸ popWhile_suffix pt (W ++ [z])) hch
      · intro b c rest hbc
        have h2 := popWhile_stop pt (W ++ [z]) b c rest (by rw [hW'eq]; exact hbc)
        exact (orientation_eq_two_iff c b pt).mp h2
    obtain ⟨Wf, hfeq, hfdom, hfpair, hfch, hfsub, hfconv⟩ := ih (pt :: W')
      hnewdom (fun r hr => hRdom r (by simp [hr])) hnewpair
      (List.pairwise_cons.mp hRpair).2 hnewWR hnewch
    refine ⟨Wf, hstep.trans hfeq, hfdom, hfpair, hfch, ?_, ?_⟩
    · refine hfsub.trans ?_
      show ((pt :: W').reverse ++ R').Sublist (W.reverse ++ pt :: R')
      rw [List.reverse_cons, List.append_assoc]
      exact List.Sublist.append hW'sub.reverse (List.Sublist.refl _)
    · intro t ht
      have hsets : insert pt {x | x ∈ W' ++ [z]} = {x | x ∈ (pt :: W') ++ [z]} := by
        ext q
        simp
      rcases ht with ht | ht
      · have h1 : t ∈ convexHull ℚ {x | x ∈ (pt :: W') ++ [z]} := by
          rw [← hsets]
          exact hW'conv t ht
        have hmono : convexHull ℚ {x | x ∈ (pt :: W') ++ [z]} ⊆
            convexHull ℚ {x | x ∈ Wf ++ [z]} := by
          apply convexHull_min ?_ (convex_convexHull ℚ _)
          intro q hq
          exact hfconv q (Or.inl hq)
        exact hmono h1
      · rcases List.mem_cons.mp ht with h | h
        · exact hfconv t (Or.inl (by simp [h]))
        · exact hfconv t (Or.inr h)

/-- Master characterization of a successful run of
`convex_hull_graham_scan`: when the precondition holds and the sorted list
is nonempty, the function returns the reversed final stack `Wf ++ [pivot]`,
whose entries are strictly above the pivot, strictly convex, drawn in order
from the sorted list, and whose convex hull contains every input point. -/
lemma hull_main (points : List Point) (h3 : ¬ points.length < 3)
    (s0 : Point) (rest : List Point)
    (hS : stableSort (polarLe (lexMin points))
        (points.filter (fun p => decide (p ≠ lexMin points))) = s0 :: rest) :
    ∃ Wf : List Point,
      convex_hull_graham_scan points =
        .ok (((Wf ++ [lexMin points]).reverse).map Prod.fst,
             ((Wf ++ [lexMin points]).reverse).map Prod.snd) ∧
      Wf ≠ [] ∧
      (∀ x ∈ Wf, lexLt (lexMin points) x) ∧
      Wf.Pairwise (fun x y => polarLe (lexMin points) y x = true) ∧
      Chain3 (Wf ++ [lexMin points]) ∧
      Wf.reverse.Sublist (s0 :: rest) ∧
      (∀ q ∈ points, q ∈ convexHull ℚ {x | x ∈ Wf ++ [lexMin points]}) := by
  set z := lexMin points with hz
  have hperm := stableSort_perm (polarLe z) (points.filter (fun p => decide (p ≠ z)))
  rw [hS] at hperm
  have hdom : ∀ r ∈ s0 :: rest, lexLt z r := by
    intro r hr
    exact filter_lexLt points r (hperm.subset hr)
  have hpair : (s0 :: rest).Pairwise (fun a b => polarLe z a b = true) := by
    rw [← hS]
    exact stableSort_sorted (polarLe z) (polarLe_total z) (polarLe_trans z) _
  have hs0 : lexLt z s0 := hdom s0 (by simp)
  obtain ⟨Wf, hfold, hfdom, hfpair, hfch, hfsub, hfconv⟩ :=
    scan_fold z rest [s0]
      (by intro x hx; rw [List.mem_singleton] at hx; subst hx; exact hs0)
      (fun r hr => hdom r (by simp [hr]))
      (by simp)
      ((List.pairwise_cons.mp hpair).2)
      (by intro x hx r hr
          rw [List.mem_singleton] at hx
          subst hx
          exact (List.pairwise_cons.mp hpair).1 r hr)
      trivial
  have hlen : 2 ≤ (Wf ++ [z]).length := by
    rw [← hfold]
    exact scan_len rest ([s0] ++ [z]) (by simp)
  have hWfne : Wf ≠ [] := by
    intro h0
    rw [h0] at hlen
    simp at hlen
  have hcomp : convex_hull_graham_scan points =
      .ok (((Wf ++ [z]).reverse).map Prod.fst, ((Wf ++ [z]).reverse).map Prod.snd) := by
    have hdef : convex_hull_graham_scan points =
        match stableSort (polarLe z) (points.filter (fun p => decide (p ≠ z))) with
        | [] => .error .indexError
        | s0 :: rest =>
          if (rest.foldl scanStep [s0, z]).reverse.length < 2 then .error .hullAssert
          else .ok ((rest.foldl scanStep [s0, z]).reverse.map Prod.fst,
                    (rest.foldl scanStep [s0, z]).reverse.map Prod.snd) := by
      unfold convex_hull_graham_scan
      rw [if_neg h3]
    rw [hdef, hS]
    show (if (rest.foldl scanStep [s0, z]).reverse.length < 2 then
            (.error .hullAssert : Except HullError (List ℚ × List ℚ))
          else .ok ((rest.foldl scanStep [s0, z]).reverse.map Prod.fst,
                    (rest.foldl scanStep [s0, z]).reverse.map Prod.snd)) = _
    have hstack : ([s0, z] : List Point) = [s0] ++ [z] := rfl
    rw [hstack, hfold]
    rw [if_neg (by rw [List.length_reverse]; omega)]
  refine ⟨Wf, hcomp, hWfne, hfdom, hfpair, hfch, hfsub, ?_⟩
  intro q hq
  by_cases hqz : q = z
  · subst hqz
    exact subset_convexHull ℚ _ (by simp)
  · have hqf : q ∈ points.filter (fun p => decide (p ≠ z)) := by
      rw [List.mem_filter]
      exact ⟨hq, by simp [hqz]⟩
    have hqS : q ∈ s0 :: rest := hperm.mem_iff.mpr hqf
    rcases List.mem_cons.mp hqS with h | h
    · exact hfconv q (Or.inl (by simp [h]))
    · exact hfconv q (Or.inr h)

/-- The body of `convex_hull_graham_scan` once the size precondition holds. -/
lemma hull_unfold (points : List Point) (h3 : ¬ points.length < 3) :
    convex_hull_graham_scan points =
      match stableSort (polarLe (lexMin points))
          (points.filter (fun p => decide (p ≠ lexMin points))) with
      | [] => .error .indexError
      | s0 :: rest =>
        if (rest.foldl scanStep [s0, lexMin points]).reverse.length < 2 then
          .error .hullAssert
        else
          .ok ((rest.foldl scanStep [s0, lexMin points]).reverse.map Prod.fst,
               (rest.foldl scanStep [s0, lexMin points]).reverse.map Prod.snd) := by
  unfold convex_hull_graham_scan
  rw [if_neg h3]

lemma zip_map_fst_snd_self : ∀ l : List Point, (l.map Prod.fst).zip (l.map Prod.snd) = l := by
  intro l
  induction l with
  | nil => rfl
  | cons p l ih => simp [ih]

lemma lexLt_ne (a b : Point) (h : lexLt a b) : b ≠ a := by
  intro h0
  rw [h0] at h
  exact lexLt_asymm a a h h

/-- Scanning a sequence that forms strictly convex turns with the stack
pushes every point and pops none. -/
lemma fold_no_pop : ∀ (rest stack : List Point), 2 ≤ stack.length →
    Chain3 (rest.reverse ++ stack) →
    rest.foldl scanStep stack = rest.reverse ++ stack := by
  intro rest
  induction rest with
  | nil => intro stack _ _; simp
  | cons pt rest' ih =>
    intro stack hlen hch
    match stack, hlen with
    | a :: b :: tail, _ =>
      have hassoc : (pt :: rest').reverse ++ (a :: b :: tail) =
          rest'.reverse ++ (pt :: a :: b :: tail) := by
        rw [List.reverse_cons, List.append_assoc]
        rfl
      have hch2 : Chain3 (rest'.reverse ++ (pt :: a :: b :: tail)) := by
        rw [← hassoc]
        exact hch
      have hch' : Chain3 (pt :: a :: b :: tail) :=
        Chain3_of_append rest'.reverse _ hch2
      have hcross : 0 < cross3 b a pt := hch'.1
      have hpop : popWhile pt (a :: b :: tail) = a :: b :: tail := by
        rw [show popWhile pt (a :: b :: tail) =
          if orientation b a pt ≠ 2 then popWhile pt (b :: tail) else a :: b :: tail
          from rfl]
        rw [if_neg (not_not.mpr ((orientation_eq_two_iff b a pt).mpr hcross))]
      rw [List.foldl_cons]
      have hstep : scanStep (a :: b :: tail) pt = pt :: a :: b :: tail := by
        unfold scanStep
        rw [hpop]
      rw [hstep, ih (pt :: a :: b :: tail) (by simp) hch2, hassoc]

/-! ## The hull claims -/

/-- C9: `convex_hull_graham_scan` fails with the precondition assertion
(`assert numpoints >= 3`, the spec's PreconditionError) for every input with
fewer than 3 points, and never fails with that error for inputs of size at
least 3. -/
theorem convexHull_precondition (points : List Point) :
    (points.length < 3 → convex_hull_graham_scan points = .error .precondition)
    ∧ (3 ≤ points.length → convex_hull_graham_scan points ≠ .error .precondition) := by
  constructor
  · intro h
    unfold convex_hull_graham_scan
    rw [if_pos h]
  · intro h hcon
    have h3 : ¬ points.length < 3 := by omega
    rw [hull_unfold points h3] at hcon
    cases hS : stableSort (polarLe (lexMin points))
        (points.filter (fun p => decide (p ≠ lexMin points))) with
    | nil =>
      rw [hS] at hcon
      exact HullError.noConfusion (Except.error.inj hcon)
    | cons s0 rest =>
      rw [hS] at hcon
      dsimp only at hcon
      split at hcon
      · exact HullError.noConfusion (Except.error.inj hcon)
      · exact Except.noConfusion hcon

/-- Witness for `convexHull_precondition` at concrete inputs. -/
theorem convexHull_precondition_witness :
    convex_hull_graham_scan [((0:ℚ), (0:ℚ)), (1, 1)] = .error .precondition ∧
    convex_hull_graham_scan [((0:ℚ), (0:ℚ)), (4, 0), (4, 4), (0, 4), (2, 2)] ≠
      .error .precondition :=
  ⟨(convexHull_precondition [((0:ℚ), (0:ℚ)), (1, 1)]).1 (by simp),
   (convexHull_precondition [((0:ℚ), (0:ℚ)), (4, 0), (4, 4), (0, 4), (2, 2)]).2 (by simp)⟩

/-- C10: whenever `convex_hull_graham_scan` returns normally, the two
returned coordinate sequences have equal length, that length is at least 2,
and their first elements are the x and y coordinates of the
lexicographically smallest input point (minimal x, ties broken by minimal
y) — the pivot, which is never popped from the hull stack. -/
theorem convexHull_shape (points : List Point) (xs ys : List ℚ)
    (h : convex_hull_graham_scan points = .ok (xs, ys)) :
    xs.length = ys.length ∧ 2 ≤ xs.length ∧
    lexMin points ∈ points ∧
    (∀ q ∈ points, ¬ lexLt q (lexMin points)) ∧
    xs.head? = some (lexMin points).1 ∧ ys.head? = some (lexMin points).2 := by
  have h3 : ¬ points.length < 3 := by
    intro hlt
    unfold convex_hull_graham_scan at h
    rw [if_pos hlt] at h
    exact Except.noConfusion h
  have hne : points ≠ [] := by
    intro h0
    rw [h0] at h3
    simp at h3
  cases hS : stableSort (polarLe (lexMin points))
      (points.filter (fun p => decide (p ≠ lexMin points))) with
  | nil =>
    rw [hull_unfold points h3, hS] at h
    exact Except.noConfusion h
  | cons s0 rest =>
    obtain ⟨Wf, hok, hWfne, -, -, -, -, -⟩ := hull_main points h3 s0 rest hS
    rw [h] at hok
    obtain ⟨hxs, hys⟩ := Prod.mk.injEq .. ▸ (Except.ok.inj hok)
    have hrev : (Wf ++ [lexMin points]).reverse = lexMin points :: Wf.reverse := by
      rw [List.reverse_append]
      rfl
    subst hxs
    subst hys
    rw [hrev]
    refine ⟨by simp, ?_, lexMin_mem points hne, lexMin_le points, by simp, by simp⟩
    simp only [List.length_map, List.length_cons, List.length_reverse]
    have hpos : 0 < Wf.length := List.length_pos.mpr hWfne
    omega

section ConcreteHull

attribute [local semireducible] Rat.mul Rat.add Rat.sub Rat.inv

set_option maxRecDepth 8000

/-- The worked example of the spec, evaluated. -/
lemma hull_example_eval :
    convex_hull_graham_scan [((0:ℚ), (0:ℚ)), (4, 0), (4, 4), (0, 4), (2, 2)] =
      .ok ([0, 4, 4, 0], [0, 0, 4, 4]) := by
  decide

/-- C3: for every point set (duplicate-free list) of size at least 3,
`convex_hull_graham_scan` returns normally and every input point lies on or
inside the returned polygon — it belongs to the convex hull of the returned
vertices; in particular, on `{(0,0), (4,0), (4,4), (0,4), (2,2)}` the
function excludes the interior point `(2,2)` and returns exactly the four
corner points in counterclockwise angular order starting at `(0,0)`. -/
theorem convexHull_containment :
    (∀ points : List Point, points.Nodup → 3 ≤ points.length →
      ∃ xs ys, convex_hull_graham_scan points = .ok (xs, ys) ∧
        ∀ q ∈ points, q ∈ convexHull ℚ {p : Point | p ∈ xs.zip ys})
    ∧ convex_hull_graham_scan [((0:ℚ), (0:ℚ)), (4, 0), (4, 4), (0, 4), (2, 2)] =
        .ok ([0, 4, 4, 0], [0, 0, 4, 4]) := by
  constructor
  · intro points hnd hlen
    have h3 : ¬ points.length < 3 := by omega
    have hfilne : points.filter (fun p => decide (p ≠ lexMin points)) ≠ [] := by
      intro h0
      have hall : ∀ p ∈ points, p = lexMin points := by
        intro p hp
        by_contra hne
        have hmem : p ∈ points.filter (fun p => decide (p ≠ lexMin points)) := by
          rw [List.mem_filter]
          exact ⟨hp, by simp [hne]⟩
        rw [h0] at hmem
        exact absurd hmem (by simp)
      rcases points with _ | ⟨a, _ | ⟨b, l2⟩⟩
      · simp at hlen
      · simp at hlen
      · have ha : a = lexMin (a :: b :: l2) := hall a (by simp)
        have hb : b = lexMin (a :: b :: l2) := hall b (by simp)
        rw [List.nodup_cons] at hnd
        exact hnd.1 (by rw [ha, ← hb]; exact List.mem_cons_self b l2)
    cases hS : stableSort (polarLe (lexMin points))
        (points.filter (fun p => decide (p ≠ lexMin points))) with
    | nil =>
      exfalso
      have hperm := stableSort_perm (polarLe (lexMin points))
        (points.filter (fun p => decide (p ≠ lexMin points)))
      rw [hS] at hperm
      exact hfilne (hperm.nil_eq).symm
    | cons s0 rest =>
      obtain ⟨Wf, hok, -, -, -, -, -, hconv⟩ := hull_main points h3 s0 rest hS
      refine ⟨_, _, hok, ?_⟩
      intro q hq
      rw [zip_map_fst_snd_self]
      have hset : {p : Point | p ∈ (Wf ++ [lexMin points]).reverse} =
          {x : Point | x ∈ Wf ++ [lexMin points]} := by
        ext p
        simp [or_comm]
      rw [hset]
      exact hconv q hq
  · exact hull_example_eval

/-- Witness for `convexHull_containment` at the spec's worked example: the
interior point `(2,2)` is contained in the hull of the returned vertices. -/
theorem convexHull_containment_witness :
    ((2:ℚ), (2:ℚ)) ∈ convexHull ℚ
      {p : Point | p ∈ (([0, 4, 4, 0] : List ℚ).zip ([0, 0, 4, 4] : List ℚ))} := by
  obtain ⟨xs, ys, hok, hcont⟩ := convexHull_containment.1
    [((0:ℚ), (0:ℚ)), (4, 0), (4, 4), (0, 4), (2, 2)] (by decide) (by decide)
  have heq := hok.symm.trans convexHull_containment.2
  obtain ⟨hxs, hys⟩ := Prod.mk.injEq .. ▸ (Except.ok.inj heq)
  subst hxs
  subst hys
  exact hcont (2, 2) (by simp)

/-- Witness for `convexHull_shape` at the spec's worked example. -/
theorem convexHull_shape_witness :
    ([0, 4, 4, 0] : List ℚ).length = ([0, 0, 4, 4] : List ℚ).length ∧
    2 ≤ ([0, 4, 4, 0] : List ℚ).length ∧
    ([0, 4, 4, 0] : List ℚ).head? =
      some (lexMin [((0:ℚ), (0:ℚ)), (4, 0), (4, 4), (0, 4), (2, 2)]).1 := by
  have h := convexHull_shape [((0:ℚ), (0:ℚ)), (4, 0), (4, 4), (0, 4), (2, 2)]
    [0, 4, 4, 0] [0, 0, 4, 4] (by decide)
  exact ⟨h.1, h.2.1, h.2.2.2.2.1⟩

/-- C8 (counterexample): on the duplicate-free collinear point set
`{(0,0), (1,0), (2,0)}` of size 3, the hull degenerates to two vertices, and
re-running `convex_hull_graham_scan` on the hull's own points fails with the
size-3 precondition assertion instead of returning the same hull. -/
theorem convexHull_not_idempotent_collinear :
    convex_hull_graham_scan [((0:ℚ), (0:ℚ)), (1, 0), (2, 0)] = .ok ([0, 2], [0, 0]) ∧
    convex_hull_graham_scan ((([0, 2] : List ℚ)).zip (([0, 0] : List ℚ))) =
      .error .precondition :=
  ⟨by decide, by decide⟩

end ConcreteHull

/-- C8 (amended): for every duplicate-free point list of size at least 3
whose returned hull has at least 3 vertices, re-running
`convex_hull_graham_scan` on the point sequence formed from its own output
hull coordinates returns the same hull (same coordinate sequences in the
same order). -/
theorem convexHull_idempotent (points : List Point) (hnd : points.Nodup)
    (hlen3 : 3 ≤ points.length) (xs ys : List ℚ)
    (hok : convex_hull_graham_scan points = .ok (xs, ys)) (hxs : 3 ≤ xs.length) :
    convex_hull_graham_scan (xs.zip ys) = .ok (xs, ys) := by
  have h3 : ¬ points.length < 3 := by omega
  set z := lexMin points with hz
  cases hS : stableSort (polarLe z) (points.filter (fun p => decide (p ≠ z))) with
  | nil =>
    exfalso
    rw [hull_unfold points h3, ← hz, hS] at hok
    exact Except.noConfusion hok
  | cons s0 rest =>
    obtain ⟨Wf, hmaineq, hWfne, hWfdom, hWfpair, hWfch, hWfsub, -⟩ :=
      hull_main points h3 s0 rest hS
    rw [hok] at hmaineq
    obtain ⟨hxs_eq, hys_eq⟩ := Prod.mk.injEq .. ▸ (Except.ok.inj hmaineq)
    subst hxs_eq
    subst hys_eq
    rw [zip_map_fst_snd_self]
    have hrev : (Wf ++ [z]).reverse = z :: Wf.reverse := by
      rw [List.reverse_append]
      rfl
    rw [hrev]
    have hxs3 : 3 ≤ Wf.length + 1 := by
      rw [hrev] at hxs
      simpa using hxs
    have hH3 : ¬ (z :: Wf.reverse).length < 3 := by
      simp only [List.length_cons, List.length_reverse]
      omega
    have hsdom : ∀ x ∈ Wf.reverse, lexLt z x := by
      intro x hx
      exact hWfdom x (List.mem_reverse.mp hx)
    have hspair : Wf.reverse.Pairwise (fun a b => polarLe z a b = true) :=
      (List.pairwise_reverse).mpr hWfpair
    have hminH : lexMin (z :: Wf.reverse) = z := by
      apply lexMin_eq
      · simp
      · intro x hx
        rcases List.mem_cons.mp hx with h | h
        · exact Or.inl h
        · exact Or.inr (hsdom x h)
    have hfil : (z :: Wf.reverse).filter (fun p => decide (p ≠ z)) = Wf.reverse := by
      rw [List.filter_cons, if_neg (by simp)]
      apply List.filter_eq_self.mpr
      intro x hx
      simp [lexLt_ne z x (hsdom x hx)]
    have hsort : stableSort (polarLe z) Wf.reverse = Wf.reverse :=
      stableSort_of_sorted _ _ hspair
    have hsne : Wf.reverse ≠ [] := by simpa using hWfne
    rw [hull_unfold (z :: Wf.reverse) hH3, hminH, hfil, hsort]
    obtain ⟨h1, hrest, hhs1⟩ : ∃ h1 hrest, Wf.reverse = h1 :: hrest := by
      cases hW : Wf.reverse with
      | nil => exact absurd hW hsne
      | cons h1 hrest => exact ⟨h1, hrest, rfl⟩
    rw [hhs1]
    dsimp only
    have hWfz : Wf ++ [z] = hrest.reverse ++ [h1, z] := by
      have hWf_eq : Wf = hrest.reverse ++ [h1] := by
        have := congrArg List.reverse hhs1
        rw [List.reverse_reverse] at this
        rw [this, List.reverse_cons]
      rw [hWf_eq, List.append_assoc]
      rfl
    have hfold : hrest.foldl scanStep [h1, z] = hrest.reverse ++ [h1, z] := by
      apply fold_no_pop hrest [h1, z] (by simp)
      rw [← hWfz]
      exact hWfch
    rw [hfold, ← hWfz]
    rw [if_neg (by
      simp only [List.length_reverse, List.length_append, List.length_singleton]
      omega)]
    rw [hrev, hhs1]

section ConcreteHull2

attribute [local semireducible] Rat.mul Rat.add Rat.sub Rat.inv

set_option maxRecDepth 8000

/-- Witness for `convexHull_idempotent` at the spec's worked example. -/
theorem convexHull_idempotent_witness :
    convex_hull_graham_scan ((([0, 4, 4, 0] : List ℚ)).zip (([0, 0, 4, 4] : List ℚ))) =
      .ok ([0, 4, 4, 0], [0, 0, 4, 4]) :=
  convexHull_idempotent [((0:ℚ), (0:ℚ)), (4, 0), (4, 4), (0, 4), (2, 2)]
    (by decide) (by decide) [0, 4, 4, 0] [0, 0, 4, 4] (by decide) (by decide)

end ConcreteHull2

end Psychro
